import Mathlib

/-!
# Verification of the NetworkStats module of the bible-project repository

This file gives a shallow embedding of the graph-analytics engine
(`NetworkStats` module) of the repository: degree centrality, sampled
betweenness centrality, BFS shortest-path search, clustering coefficients,
hub identification, label-propagation community detection, network-wide
statistics, and the computation cache.

Modelling conventions:
* JavaScript numbers are modelled as exact rationals (`ℚ`) or naturals.
  A division whose divisor is `0` yields `NaN` or `±Infinity` in JS; such a
  result is modelled as `none : Option ℚ` (`jsDiv`).
* The `Map` built by `new Map(verses.map(v => [v.id, v]))` resolves an id to
  the last verse carrying it (later `set` calls overwrite earlier ones);
  `mapGet` reproduces this with `find?` on the reversed list.
* `Array.prototype.sort` with a numeric comparator is a stable sort by the
  comparator; `sortBy` is a stable insertion sort parameterised by the
  induced boolean "may come first" relation.
* `Math.random()`-driven choices are inputs of the model: the sampled index
  pairs of betweenness centrality are an explicit stream `draws : ℕ → ℕ × ℕ`
  (the code draws `Math.floor(Math.random() * verses.length)`, a uniform
  index into `verses`; the model reduces an arbitrary natural modulo the
  length), and the per-iteration shuffles of community detection are an
  explicit stream `shuffles : ℕ → List Verse`.
* The BFS `while` loop is written with an explicit iteration budget (fuel);
  `findShortestPath` passes `verses.length + 1`, which is proved to be an
  upper bound on the number of loop iterations, so the fuel never runs out.
-/

/-- A verse node, as produced by `DataLoader.processData`:
`{ id, verse, refs: Object.keys(data.r), refCount: refs.length }`.
The presentation-only fields (`book`, `x`, `y`) are omitted; `refCount` is
kept as a stored field exactly as in the source, where it is read
independently of `refs`. -/
structure Verse where
  id : String
  verse : String
  refs : List String
  refCount : Nat
  deriving DecidableEq, Repr

/-- `new Map(verses.map(v => [v.id, v])).get(i)`: the last verse of the list
whose id is `i`, since later `Map.set` calls overwrite earlier ones. -/
def mapGet (verses : List Verse) (i : String) : Option Verse :=
  verses.reverse.find? (fun v => v.id = i)

/-- JS division on numbers: dividing by `0` produces `NaN` or `±Infinity`
(modelled as `none`); otherwise the exact quotient. -/
def jsDiv (a b : ℚ) : Option ℚ :=
  if b = 0 then none else some (a / b)

/-- Insert `a` into `l`, placing it before the first element `b` for which
`le a b` holds. -/
def insertSorted (le : α → α → Bool) (a : α) : List α → List α
  | [] => [a]
  | b :: l => if le a b then a :: b :: l else b :: insertSorted le a l

/-- Stable insertion sort: the unique stable sort by a total transitive
boolean relation, hence the result of `Array.prototype.sort` with the
corresponding numeric comparator. -/
def sortBy (le : α → α → Bool) : List α → List α
  | [] => []
  | a :: l => insertSorted le a (sortBy le l)

/-- Descending comparison of possibly-NaN scores, from the comparator
`(a, b) => b.score - a.score`: on two numbers, `a` may stay before `b` iff
`b.score ≤ a.score`; a comparator evaluating to `NaN` is treated as `0`
(elements keep their relative order). -/
def scoreLe (a b : Option ℚ) : Bool :=
  match a, b with
  | some x, some y => y ≤ x
  | _, _ => true

/-! ## Degree centrality (`calculateDegreeCentrality`) -/

/-- Result record of `calculateDegreeCentrality`: the spread verse plus
`degreeCentrality` (possibly `NaN`) and `normalizedDegree`. -/
structure DCScored where
  verse : Verse
  degreeCentrality : Option ℚ
  normalizedDegree : Nat
  deriving DecidableEq, Repr

/-- `Math.max(...verses.map(v => v.refCount))`.  On an empty list JS yields
`-Infinity`; the default `0` used here is never consulted in that case,
because the score list below is empty as well. -/
def maxRefs (verses : List Verse) : Nat :=
  (verses.map (fun v => v.refCount)).foldr max 0

/-- `calculateDegreeCentrality` (the computation after the cache check):
score each verse by `refCount / maxRefs` and sort descending. -/
def calculateDegreeCentrality (verses : List Verse) : List DCScored :=
  let mx := maxRefs verses
  let centralityScores := verses.map (fun v =>
    { verse := v
      degreeCentrality := jsDiv (v.refCount : ℚ) (mx : ℚ)
      normalizedDegree := v.refCount : DCScored })
  sortBy (fun a b => scoreLe a.degreeCentrality b.degreeCentrality)
    centralityScores

/-! ## BFS shortest path (`findShortestPath`) -/

/-- The inner `for (const refId of current.refs)` loop of `findShortestPath`:
each unvisited ref id is marked visited, and if it resolves, the extended
path is appended to the list of new queue entries. -/
def enqueueRefs (m : String → Option Verse) (path : List Verse) :
    List String → List String → List String × List (List Verse)
  | visited, [] => (visited, [])
  | visited, r :: rs =>
    if r ∈ visited then enqueueRefs m path visited rs
    else
      match m r with
      | some v =>
        let (vis, q) := enqueueRefs m path (r :: visited) rs
        (vis, (path ++ [v]) :: q)
      | none => enqueueRefs m path (r :: visited) rs

/-- The `while (queue.length > 0)` loop of `findShortestPath`, with an
explicit iteration budget.  Each pass shifts the front path; a path longer
than `maxDepth = 6` nodes is skipped before the target test; reaching the
target returns the path; otherwise the unvisited resolvable refs of the
path's last verse are enqueued at the back. -/
def bfsAux (m : String → Option Verse) (endId : String) :
    Nat → List (List Verse) → List String → Option (List Verse)
  | 0, _, _ => none
  | _ + 1, [], _ => none
  | fuel + 1, path :: rest, visited =>
    match path.getLast? with
    | none => bfsAux m endId fuel rest visited
    | some current =>
      if 6 < path.length then bfsAux m endId fuel rest visited
      else if current.id = endId then some path
      else
        let (vis2, newPaths) := enqueueRefs m path visited current.refs
        bfsAux m endId fuel (rest ++ newPaths) vis2

/-- `findShortestPath(start, end, verseMap)`: BFS from `start` to `e` over
the id-indexed map of `verses`, depth-capped at 6 nodes per path.  The fuel
`verses.length + 1` bounds the number of loop iterations: every queue entry
beyond the initial one is created together with a fresh visited id that
resolves in the map. -/
def findShortestPath (start e : Verse) (verses : List Verse) :
    Option (List Verse) :=
  bfsAux (mapGet verses) e.id (verses.length + 1) [[start]] [start.id]

/-- One traversal step of the BFS: `v` is a successor of `u` when `u` lists
`v.id` among its refs and the map resolves `v.id` to `v` itself. -/
def RefStep (m : String → Option Verse) (u v : Verse) : Prop :=
  v.id ∈ u.refs ∧ m v.id = some v

instance (m : String → Option Verse) : DecidableRel (RefStep m) := fun _ _ =>
  inferInstanceAs (Decidable (_ ∧ _))

/-- Boolean checker for consecutive `RefStep` edges along a list. -/
def chainB (m : String → Option Verse) : List Verse → Bool
  | [] => true
  | [_] => true
  | u :: v :: rest =>
    decide (v.id ∈ u.refs) && decide (m v.id = some v) && chainB m (v :: rest)

/-- A path of the graph: nonempty, starting at `start`, each consecutive
pair linked by `RefStep`. -/
def IsPath (m : String → Option Verse) (start : Verse) (p : List Verse) :
    Prop :=
  p.head? = some start ∧ List.Chain' (RefStep m) p

/-- Executable form of `IsPath`, used for concrete inputs. -/
def isPathB (m : String → Option Verse) (start : Verse) (p : List Verse) :
    Bool :=
  decide (p.head? = some start) && chainB m p

/-- The id of the last verse of a queue path. -/
def lastId (p : List Verse) : Option String :=
  p.getLast?.map (fun v => v.id)

/-! ## Betweenness centrality (`calculateBetweennessCentrality`) -/

/-- Result record of `calculateBetweennessCentrality`. -/
structure BCScored where
  verse : Verse
  betweennessCentrality : ℚ
  betweennessScore : Nat
  deriving DecidableEq, Repr

/-- Placeholder verse for an out-of-range index; never consulted, since the
sampling loop only runs when `verses` is nonempty and indices are reduced
modulo the length. -/
def dummyVerse : Verse := { id := "", verse := "", refs := [], refCount := 0 }

/-- `betweenness.set(path[j].id, current + 1)` for every strictly interior
node of a discovered path. -/
def bumpAll (acc : String → Nat) : List Verse → String → Nat
  | [] => acc
  | v :: rest => bumpAll (fun x => if x = v.id then acc x + 1 else acc x) rest

/-- One iteration of the sampling loop: draw a source and a target from the
index pair, skip equal endpoints, run the path finder, and credit the
interior nodes of a path of more than two nodes. -/
def betweennessStep (verses : List Verse) (acc : String → Nat)
    (pair : Nat × Nat) : String → Nat :=
  let source := verses.getD (pair.1 % verses.length) dummyVerse
  let target := verses.getD (pair.2 % verses.length) dummyVerse
  if source.id = target.id then acc
  else
    match findShortestPath source target verses with
    | some path =>
      if 2 < path.length then bumpAll acc ((path.drop 1).dropLast) else acc
    | none => acc

/-- The first `n` iterations of the sampling loop, consuming
`draws 0, …, draws (n-1)` in order. -/
def betweennessAccLoop (verses : List Verse) (draws : Nat → Nat × Nat) :
    Nat → (String → Nat) → String → Nat
  | 0, acc => acc
  | n + 1, acc => betweennessStep verses (betweennessAccLoop verses draws n acc) (draws n)

/-- `Math.max(...betweenness.values())`: the map's keys are the distinct
verse ids, so this is the maximum accumulator value over them (order of
deduplication is irrelevant to a maximum). -/
def maxAccOver (ids : List String) (acc : String → Nat) : Nat :=
  (ids.map acc).foldr max 0

/-- `calculateBetweennessCentrality` (after the cache check): run
`min(sampleSize, verses.length)` sampling iterations, normalise each
accumulator by `Math.max(...values) || 1`, and sort descending. -/
def calculateBetweennessCentrality (verses : List Verse) (sampleSize : Int)
    (draws : Nat → Nat × Nat) : List BCScored :=
  let sample := (min sampleSize (verses.length : Int)).toNat
  let acc := betweennessAccLoop verses draws sample (fun _ => 0)
  let maxB0 := maxAccOver ((verses.map (fun v => v.id)).dedup) acc
  let maxB : ℚ := if maxB0 = 0 then 1 else (maxB0 : ℚ)
  let scores := verses.map (fun v =>
    { verse := v
      betweennessCentrality := (acc v.id : ℚ) / maxB
      betweennessScore := acc v.id : BCScored })
  sortBy (fun a b =>
    decide (b.betweennessCentrality ≤ a.betweennessCentrality)) scores

/-! ## Clustering coefficient (`calculateClusteringCoefficient`) -/

/-- Result record of `calculateClusteringCoefficient`; the two bookkeeping
fields are only present on the fully computed branch (`none` models a JS
object without them). -/
structure CCScored where
  verse : Verse
  clusteringCoefficient : ℚ
  neighborConnections : Option Nat
  possibleConnections : Option ℚ
  deriving DecidableEq, Repr

/-- `verse.refs.map(id => verseMap.get(id)).filter(v => v)`: the resolved
neighbor verses, dangling ids dropped. -/
def resolvedNeighbors (verses : List Verse) (v : Verse) : List Verse :=
  v.refs.filterMap (mapGet verses)

/-- The double loop counting ordered-index pairs `i < j` with
`neighbors[i].refs.includes(neighbors[j].id)`. -/
def countConnections : List Verse → Nat
  | [] => 0
  | n :: rest =>
    rest.countP (fun w => decide (w.id ∈ n.refs)) + countConnections rest

/-- Score of one verse in `calculateClusteringCoefficient`. -/
def clusteringScore (verses : List Verse) (v : Verse) : CCScored :=
  if v.refCount < 2 then
    { verse := v, clusteringCoefficient := 0
      neighborConnections := none, possibleConnections := none }
  else
    let neighbors := resolvedNeighbors verses v
    if neighbors.length < 2 then
      { verse := v, clusteringCoefficient := 0
        neighborConnections := none, possibleConnections := none }
    else
      let connections := countConnections neighbors
      let possible : ℚ :=
        (neighbors.length : ℚ) * ((neighbors.length : ℚ) - 1) / 2
      { verse := v
        clusteringCoefficient := (connections : ℚ) / possible
        neighborConnections := some connections
        possibleConnections := some possible }

/-- `calculateClusteringCoefficient` (after the cache check). -/
def calculateClusteringCoefficient (verses : List Verse) : List CCScored :=
  sortBy (fun a b =>
      decide (b.clusteringCoefficient ≤ a.clusteringCoefficient))
    (verses.map (clusteringScore verses))

/-! ## Hub identification (`identifyHubs`) -/

/-- Result record of `identifyHubs`; `hubScore` is `NaN`-aware because it is
a product with the possibly-`NaN` degree centrality.  (The `find` calls of
the source always succeed, since the score lists contain every verse;
accessing a field of a failed `find` would throw, which is unreachable and
modelled as `none`.) -/
structure HubScored where
  verse : Verse
  hubScore : Option ℚ
  isHub : Bool
  deriving DecidableEq, Repr

/-- The hub-score computation of `identifyHubs` given the two score lists:
`degreeCentrality * (1 - clusteringCoefficient)`. -/
def hubsFrom (verses : List Verse) (centrality : List DCScored)
    (clustering : List CCScored) (topN : Nat) : List HubScored :=
  let hubScores := verses.map (fun v =>
    let cd := centrality.find? (fun s => s.verse.id = v.id)
    let cl := clustering.find? (fun s => s.verse.id = v.id)
    let hubScore : Option ℚ :=
      match cd, cl with
      | some c, some k =>
        c.degreeCentrality.map (fun x => x * (1 - k.clusteringCoefficient))
      | _, _ => none
    { verse := v, hubScore := hubScore, isHub := false : HubScored })
  let sorted := sortBy (fun a b => scoreLe a.hubScore b.hubScore) hubScores
  sorted.mapIdx (fun i s => if i < topN then { s with isHub := true } else s)

/-- `identifyHubs` (after the cache check), computed from the two pure score
lists. -/
def identifyHubs (verses : List Verse) (topN : Nat) : List HubScored :=
  hubsFrom verses (calculateDegreeCentrality verses)
    (calculateClusteringCoefficient verses) topN

/-! ## Community detection (`detectCommunities`) -/

/-- `new Map(verses.map(v => [v.id, v.id]))` read through `get`: defined
exactly on the verse ids, each mapped to itself. -/
def initialLabels (verses : List Verse) : String → Option String :=
  fun i => if verses.any (fun v => v.id = i) then some i else none

/-- `labelCounts.set(label, (labelCounts.get(label) || 0) + 1)` on an
insertion-ordered association list. -/
def bumpCount : List (String × Nat) → String → List (String × Nat)
  | [], l => [(l, 1)]
  | (k, c) :: rest, l =>
    if k = l then (k, c + 1) :: rest else (k, c) :: bumpCount rest l

/-- Tally the labels of the resolved neighbors: a ref id whose label is
missing (`undefined`) or the empty string (both falsy in JS) is skipped. -/
def tallyLabels (labels : String → Option String) (refs : List String) :
    List (String × Nat) :=
  refs.foldl (fun counts r =>
    match labels r with
    | some l => if l = "" then counts else bumpCount counts l
    | none => counts) []

/-- The most frequent label scan: start from `(0, labels.get(verse.id))` and
replace on every strictly greater count, in tally order. -/
def pickMaxLabel (counts : List (String × Nat)) (init : Option String) :
    Option String :=
  (counts.foldl
    (fun (best : Nat × Option String) kv =>
      if best.1 < kv.2 then (kv.2, some kv.1) else best)
    (0, init)).2

/-- Process one verse of the shuffled order: zero-degree verses are skipped;
otherwise the verse's label is reassigned to the most frequent neighbor
label, counting a change when it differs. -/
def propagateStep (st : (String → Option String) × Nat) (verse : Verse) :
    (String → Option String) × Nat :=
  let labels := st.1
  if verse.refCount = 0 then st
  else
    let maxLabel := pickMaxLabel (tallyLabels labels verse.refs)
      (labels verse.id)
    if labels verse.id ≠ maxLabel then
      (fun j => if j = verse.id then maxLabel else labels j, st.2 + 1)
    else st

/-- One label-propagation iteration over a shuffled verse order, returning
the new labels and the number of changes. -/
def runIteration (labels : String → Option String) (shuffled : List Verse) :
    (String → Option String) × Nat :=
  shuffled.foldl propagateStep (labels, 0)

/-- The iteration loop with early exit on a change-free iteration;
iteration `i` visits the shuffled order `shuffles i`. -/
def lpIterate (shuffles : Nat → List Verse) :
    Nat → Nat → (String → Option String) → String → Option String
  | _, 0, labels => labels
  | iter, rem + 1, labels =>
    let st := runIteration labels (shuffles iter)
    if st.2 = 0 then st.1 else lpIterate shuffles (iter + 1) rem st.1

/-- Append `v` to the group labelled `l`, creating it at the back on first
sight (JS `Map` insertion order). -/
def addToGroup : List (String × List Verse) → String → Verse →
    List (String × List Verse)
  | [], l, v => [(l, [v])]
  | (k, ms) :: rest, l, v =>
    if k = l then (k, ms ++ [v]) :: rest else (k, ms) :: addToGroup rest l v

/-- Group the verses by final label, in verse order.  `labels` is defined on
every verse id (`labels_covers` below), so the `getD` default is never
consulted. -/
def groupByLabel (labels : String → Option String) (verses : List Verse) :
    List (String × List Verse) :=
  verses.foldl (fun g v => addToGroup g ((labels v.id).getD v.id) v) []

/-- Result of `detectCommunities`. -/
structure CommunityResult where
  communities : List (String × List Verse)
  communityCount : Nat
  labels : String → Option String

/-- `detectCommunities` (after the cache check): label propagation for
`iterations` rounds (with early exit), then grouping by final label,
discarding groups of fewer than 3 members and sorting by size descending. -/
def detectCommunities (verses : List Verse) (iterations : Int)
    (shuffles : Nat → List Verse) : CommunityResult :=
  let labels := lpIterate shuffles 0 iterations.toNat (initialLabels verses)
  let significant :=
    sortBy (fun a b => decide (b.2.length ≤ a.2.length))
      ((groupByLabel labels verses).filter (fun g => 3 ≤ g.2.length))
  { communities := significant
    communityCount := significant.length
    labels := labels }

/-! ## Network statistics (`getNetworkStatistics`) -/

/-- One entry of `topVerses`: display reference, ref count, degree
centrality (pre-`toFixed` formatting). -/
structure TopVerse where
  verse : String
  refs : Nat
  centrality : Option ℚ
  deriving DecidableEq, Repr

/-- The record returned by `getNetworkStatistics`.  `avgDegree` and
`density` are the numeric values before `toFixed` formatting (`none` models
`NaN`); `medianDegree` and `maxDegree` are `undefined` (`none`) on an empty
graph. -/
structure NetworkStatistics where
  nodeCount : Nat
  edgeCount : Nat
  avgDegree : Option ℚ
  medianDegree : Option Nat
  maxDegree : Option Nat
  density : Option ℚ
  topVerses : List TopVerse
  deriving DecidableEq, Repr

/-- The body of `getNetworkStatistics`, given the (possibly cached) degree
centrality list it consults for `topVerses`. -/
def networkStatisticsFrom (verses : List Verse)
    (centrality : List DCScored) : NetworkStatistics :=
  let totalRefs := (verses.map (fun v => v.refCount)).sum
  let refCounts := sortBy (fun a b => decide (b ≤ a))
    (verses.map (fun v => v.refCount))
  let possible : ℚ :=
    (verses.length : ℚ) * ((verses.length : ℚ) - 1) / 2
  { nodeCount := verses.length
    edgeCount := totalRefs
    avgDegree := jsDiv (totalRefs : ℚ) (verses.length : ℚ)
    medianDegree := refCounts[refCounts.length / 2]?
    maxDegree := refCounts[0]?
    density := jsDiv ((totalRefs : ℚ) / 2) possible
    topVerses := (centrality.take 10).map (fun s =>
      { verse := s.verse.verse, refs := s.verse.refCount
        centrality := s.degreeCentrality }) }

/-! ## The statistics cache (`statsCache`, `clearCache`) and cached wrappers -/

/-- The module-level `statsCache` object. -/
structure StatsCache where
  centrality : Option (List DCScored)
  betweenness : Option (List BCScored)
  clustering : Option (List CCScored)
  communities : Option CommunityResult
  hubs : Option (List HubScored)
  lastComputed : Option Unit

/-- `clearCache()`: every slot reset to `null`. -/
def clearCache : StatsCache :=
  { centrality := none, betweenness := none, clustering := none
    communities := none, hubs := none, lastComputed := none }

/-- `calculateDegreeCentrality` with its leading cache check. -/
def calculateDegreeCentralityCached (verses : List Verse) (c : StatsCache) :
    List DCScored × StatsCache :=
  match c.centrality with
  | some r => (r, c)
  | none =>
    let r := calculateDegreeCentrality verses
    (r, { c with centrality := some r })

/-- `calculateBetweennessCentrality` with its leading cache check. -/
def calculateBetweennessCentralityCached (verses : List Verse)
    (sampleSize : Int) (draws : Nat → Nat × Nat) (c : StatsCache) :
    List BCScored × StatsCache :=
  match c.betweenness with
  | some r => (r, c)
  | none =>
    let r := calculateBetweennessCentrality verses sampleSize draws
    (r, { c with betweenness := some r })

/-- `calculateClusteringCoefficient` with its leading cache check. -/
def calculateClusteringCoefficientCached (verses : List Verse)
    (c : StatsCache) : List CCScored × StatsCache :=
  match c.clustering with
  | some r => (r, c)
  | none =>
    let r := calculateClusteringCoefficient verses
    (r, { c with clustering := some r })

/-- `identifyHubs` with its leading cache check; its two inner score lists
go through the cached functions, as in the source. -/
def identifyHubsCached (verses : List Verse) (topN : Nat) (c : StatsCache) :
    List HubScored × StatsCache :=
  match c.hubs with
  | some r => (r, c)
  | none =>
    let p1 := calculateDegreeCentralityCached verses c
    let p2 := calculateClusteringCoefficientCached verses p1.2
    let r := hubsFrom verses p1.1 p2.1 topN
    (r, { p2.2 with hubs := some r })

/-- `detectCommunities` with its leading cache check. -/
def detectCommunitiesCached (verses : List Verse) (iterations : Int)
    (shuffles : Nat → List Verse) (c : StatsCache) :
    CommunityResult × StatsCache :=
  match c.communities with
  | some r => (r, c)
  | none =>
    let r := detectCommunities verses iterations shuffles
    (r, { c with communities := some r })

/-- `getNetworkStatistics`: uncached itself, but its `topVerses` consult the
cached degree centrality. -/
def getNetworkStatisticsCached (verses : List Verse) (c : StatsCache) :
    NetworkStatistics × StatsCache :=
  let p := calculateDegreeCentralityCached verses c
  (networkStatisticsFrom verses p.1, p.2)

/-- The composite report assembled by `computeAllStats`. -/
structure AllStats where
  network : NetworkStatistics
  centrality : List DCScored
  betweenness : List BCScored
  clustering : List CCScored
  hubs : List HubScored
  communities : CommunityResult

/-- `computeAllStats`: the aggregation in source order — network statistics,
top-20 centrality, top-20 betweenness (sample 200), top-20 clustering, hubs
(top 30, filtered to the flagged ones), communities (5 iterations) — with
the cache threaded through and `lastComputed` stamped at the end (the
wall-clock date itself is outside the model). -/
def computeAllStats (verses : List Verse) (draws : Nat → Nat × Nat)
    (shuffles : Nat → List Verse) (c : StatsCache) :
    AllStats × StatsCache :=
  let pn := getNetworkStatisticsCached verses c
  let pc := calculateDegreeCentralityCached verses pn.2
  let pb := calculateBetweennessCentralityCached verses 200 draws pc.2
  let pk := calculateClusteringCoefficientCached verses pb.2
  let ph := identifyHubsCached verses 30 pk.2
  let pm := detectCommunitiesCached verses 5 shuffles ph.2
  ({ network := pn.1
     centrality := pc.1.take 20
     betweenness := pb.1.take 20
     clustering := pk.1.take 20
     hubs := ph.1.filter (fun v => v.isHub)
     communities := pm.1 },
   { pm.2 with lastComputed := some () })

/-! ## Dangling-reference pruning (for the missing-reference claims)

`pruneVerse` removes from a verse's ref list exactly the ids that do not
resolve in the given node set, leaving `id` and the cached `refCount`
untouched; `pruneAll` prunes every verse.  "Dangling references are silently
skipped" is formalised as: running an algorithm on the pruned graph gives
the same observable result as running it on the original. -/

/-- Drop the unresolvable ref ids of one verse. -/
def pruneVerse (verses : List Verse) (v : Verse) : Verse :=
  { v with refs := v.refs.filter (fun r => (mapGet verses r).isSome) }

/-- Drop the unresolvable ref ids of every verse. -/
def pruneAll (verses : List Verse) : List Verse :=
  verses.map (pruneVerse verses)

/-- The verse a path through the BFS can stand on under id `i`: the start
verse itself (for `i = start.id`), or the verse the map resolves `i` to. -/
def VerseFor (m : String → Option Verse) (start : Verse) (i : String)
    (u : Verse) : Prop :=
  (i = start.id ∧ u = start) ∨ m i = some u

/-- The invariant of the BFS loop state (queue of paths, visited ids):
queue paths are valid and of at most two consecutive lengths in
nondecreasing order, each queue path is a minimum-length path to its
endpoint, all ids reachable within the front length (capped at the depth
bound) are visited, and every visited id is either still on the queue
frontier, or only reachable beyond the depth cap, or fully expanded. -/
structure BfsInv (m : String → Option Verse) (start : Verse)
    (q : List (List Verse)) (vis : List String) : Prop where
  valid : ∀ p ∈ q, IsPath m start p
  lens_sorted : List.Pairwise (fun a b => a ≤ b) (q.map (fun p => p.length))
  lens_bounded : ∀ f, q.head? = some f → ∀ p ∈ q, p.length ≤ f.length + 1
  ends_vis : ∀ p ∈ q, ∀ u ∈ p.getLast?, u.id ∈ vis
  minimalQ : ∀ p ∈ q, ∀ P, IsPath m start P → lastId P = lastId p →
    p.length ≤ P.length
  start_vis : start.id ∈ vis
  coverage : ∀ f, q.head? = some f → ∀ P, IsPath m start P →
    P.length ≤ min f.length 7 → ∀ z ∈ P.getLast?, z.id ∈ vis
  expanded : ∀ i ∈ vis,
    (∃ p ∈ q, lastId p = some i) ∨
    (∀ P, IsPath m start P → lastId P = some i → 7 ≤ P.length) ∨
    (∀ u, VerseFor m start i u → ∀ r ∈ u.refs, r ∈ vis)

/-! ## Concrete graphs used in the claim theorems -/

/-- A single isolated verse (degree 0). -/
def soloVerse : Verse := { id := "S1", verse := "S 1", refs := [], refCount := 0 }

/-- The 4-node chain A↔B, B↔C, C↔D of the specification scenario. -/
def chainVA : Verse := { id := "A", verse := "A 1", refs := ["B"], refCount := 1 }

def chainVB : Verse := { id := "B", verse := "B 1", refs := ["A", "C"], refCount := 2 }

def chainVC : Verse := { id := "C", verse := "C 1", refs := ["B", "D"], refCount := 2 }

def chainVD : Verse := { id := "D", verse := "D 1", refs := ["C"], refCount := 1 }

def chain4 : List Verse := [chainVA, chainVB, chainVC, chainVD]

/-- The `i`-th node of a 7-node undirected chain `0 ↔ 1 ↔ … ↔ 6`
(a 6-hop path from end to end). -/
def c7 (i : Nat) : Verse :=
  { id := toString i
    verse := toString i
    refs := (if i = 0 then [] else [toString (i - 1)]) ++
      (if i = 6 then [] else [toString (i + 1)])
    refCount := if i = 0 || i = 6 then 1 else 2 }

def chain7 : List Verse := (List.range 7).map c7

/-- The fully connected 4-node graph of the specification scenario. -/
def k4A : Verse := { id := "A", verse := "A 1", refs := ["B", "C", "D"], refCount := 3 }

def k4B : Verse := { id := "B", verse := "B 1", refs := ["A", "C", "D"], refCount := 3 }

def k4C : Verse := { id := "C", verse := "C 1", refs := ["A", "B", "D"], refCount := 3 }

def k4D : Verse := { id := "D", verse := "D 1", refs := ["A", "B", "C"], refCount := 3 }

def k4 : List Verse := [k4A, k4B, k4C, k4D]

/-- A triangle with an attached dangling reference "X" that resolves to no
node, plus an isolated node. -/
def dgA : Verse := { id := "A", verse := "A 1", refs := ["B", "C", "X"], refCount := 3 }

def dgB : Verse := { id := "B", verse := "B 1", refs := ["A", "C"], refCount := 2 }

def dgC : Verse := { id := "C", verse := "C 1", refs := ["A", "B", "Y"], refCount := 3 }

def dgD : Verse := { id := "D", verse := "D 1", refs := [], refCount := 0 }

def dangling4 : List Verse := [dgA, dgB, dgC, dgD]

/-- A cache with every result slot populated (by empty results). -/
def fullCache : StatsCache :=
  { centrality := some []
    betweenness := some []
    clustering := some []
    communities := some { communities := [], communityCount := 0, labels := fun _ => none }
    hubs := some []
    lastComputed := none }

/-! ## Generic lemmas about the stable sort and `foldr max` -/

theorem insertSorted_perm (le : α → α → Bool) (a : α) (l : List α) :
    (insertSorted le a l).Perm (a :: l) := by
  induction l with
  | nil => simp [insertSorted]
  | cons b t ih =>
    by_cases h : le a b
    · simp [insertSorted, h]
    · simp only [insertSorted, if_neg h]
      exact (ih.cons b).trans (List.Perm.swap a b t)

theorem sortBy_perm (le : α → α → Bool) (l : List α) :
    (sortBy le l).Perm l := by
  induction l with
  | nil => rfl
  | cons a t ih =>
    exact (insertSorted_perm le a (sortBy le t)).trans (ih.cons a)

theorem mem_sortBy {le : α → α → Bool} {l : List α} {a : α} :
    a ∈ sortBy le l ↔ a ∈ l :=
  (sortBy_perm le l).mem_iff

theorem mem_insertSorted {le : α → α → Bool} {l : List α} {a x : α} :
    x ∈ insertSorted le a l ↔ x = a ∨ x ∈ l := by
  rw [(insertSorted_perm le a l).mem_iff, List.mem_cons]

theorem pairwise_insertSorted {le : α → α → Bool}
    (htot : ∀ x y, le x y = true ∨ le y x = true)
    (htrans : ∀ x y z, le x y = true → le y z = true → le x z = true)
    {a : α} {l : List α} (hl : l.Pairwise (fun x y => le x y = true)) :
    (insertSorted le a l).Pairwise (fun x y => le x y = true) := by
  induction l with
  | nil => simp [insertSorted]
  | cons b t ih =>
    rcases List.pairwise_cons.mp hl with ⟨hb, ht⟩
    by_cases h : le a b
    · simp only [insertSorted, if_pos h]
      refine List.pairwise_cons.mpr ⟨?_, hl⟩
      intro x hx
      rcases List.mem_cons.mp hx with rfl | hx
      · exact h
      · exact htrans a b x h (hb x hx)
    · simp only [insertSorted, if_neg h]
      refine List.pairwise_cons.mpr ⟨?_, ih ht⟩
      intro x hx
      rcases mem_insertSorted.mp hx with rfl | hx
      · rcases htot x b with h' | h'
        · exact absurd h' h
        · exact h'
      · exact hb x hx

theorem pairwise_sortBy {le : α → α → Bool}
    (htot : ∀ x y, le x y = true ∨ le y x = true)
    (htrans : ∀ x y z, le x y = true → le y z = true → le x z = true)
    (l : List α) :
    (sortBy le l).Pairwise (fun x y => le x y = true) := by
  induction l with
  | nil => exact List.Pairwise.nil
  | cons a t ih => exact pairwise_insertSorted htot htrans ih

theorem insertSorted_map (f : α → β) (le1 : α → α → Bool)
    (le2 : β → β → Bool) (h : ∀ x y, le2 (f x) (f y) = le1 x y) (a : α)
    (l : List α) :
    insertSorted le2 (f a) (l.map f) = (insertSorted le1 a l).map f := by
  induction l with
  | nil => simp [insertSorted]
  | cons b t ih =>
    simp only [List.map_cons, insertSorted, h a b]
    by_cases hab : le1 a b
    · simp [hab]
    · simp [hab, ih]

theorem sortBy_map (f : α → β) (le1 : α → α → Bool) (le2 : β → β → Bool)
    (h : ∀ x y, le2 (f x) (f y) = le1 x y) (l : List α) :
    sortBy le2 (l.map f) = (sortBy le1 l).map f := by
  induction l with
  | nil => rfl
  | cons a t ih =>
    simp only [List.map_cons, sortBy, ih]
    exact insertSorted_map f le1 le2 h a (sortBy le1 t)

theorem le_foldr_max {l : List Nat} {x : Nat} (hx : x ∈ l) :
    x ≤ l.foldr max 0 := by
  induction l with
  | nil => cases hx
  | cons b t ih =>
    rcases List.mem_cons.mp hx with rfl | hx
    · exact le_max_left _ _
    · exact le_trans (ih hx) (le_max_right _ _)

theorem foldr_max_eq_zero_or_mem (l : List Nat) :
    l.foldr max 0 = 0 ∨ l.foldr max 0 ∈ l := by
  induction l with
  | nil => exact Or.inl rfl
  | cons b t ih =>
    simp only [List.foldr_cons]
    rcases le_total b (t.foldr max 0) with h | h
    · rw [max_eq_right h]
      rcases ih with h0 | hm
      · exact Or.inl h0
      · exact Or.inr (List.mem_cons_of_mem b hm)
    · rw [max_eq_left h]
      exact Or.inr (List.mem_cons_self b t)

/-! ## Claim C1: degree centrality on the zero-degree graph -/

/-- C1: the claim states that on a graph where every node has degree 0 the
scores are all `0` and no division by zero occurs.  The code instead
computes `refCount / maxRefs = 0 / 0`, i.e. `NaN` (modelled `none`): on the
single isolated verse, the degree-centrality score is `NaN`, not `0`. -/
theorem C1_zero_degree_graph_scores_nan :
    calculateDegreeCentrality [soloVerse] =
      [{ verse := soloVerse, degreeCentrality := none, normalizedDegree := 0 }] := by
  decide

/-! ## Claim C3: network statistics on the empty graph -/

/-- C3: the claim states that on degenerate input every algorithm returns
well-defined zero/empty results and never divides by zero.  On the empty
verse list, `getNetworkStatistics` divides by zero three times:
`avgDegree = 0/0` (`NaN`, modelled `none`), `density = 0/0` (`NaN`), and
`medianDegree`/`maxDegree` read an element of an empty array
(`undefined`, modelled `none`). -/
theorem C3_empty_graph_statistics_divide_by_zero :
    (getNetworkStatisticsCached [] clearCache).1 =
      { nodeCount := 0, edgeCount := 0, avgDegree := none,
        medianDegree := none, maxDegree := none, density := none,
        topVerses := [] } := by
  norm_num [getNetworkStatisticsCached, networkStatisticsFrom, jsDiv,
    calculateDegreeCentralityCached, clearCache, calculateDegreeCentrality,
    sortBy]

/-! ## Claim C7: zero or negative sample/iteration parameters -/

/-- Every accumulator of an empty sampling run is zero, so the maximum is
zero. -/
theorem maxAccOver_const_zero (ids : List String) :
    maxAccOver ids (fun _ => 0) = 0 := by
  induction ids with
  | nil => rfl
  | cons a t ih => simpa [maxAccOver] using ih

/-- C7 counterexample: the claim states that a zero or negative sample size
or iteration count is rejected with a descriptive error.  Instead both
functions run normally: with `sampleSize = 0` betweenness centrality
performs no samples and returns an ordinary all-zero score list, and with
`iterations = -3` community detection performs no iterations and returns
the initial self-labelling with no reported communities. -/
theorem C7_zero_parameters_run_normally :
    calculateBetweennessCentrality [soloVerse] 0 (fun _ => (0, 0)) =
      [{ verse := soloVerse, betweennessCentrality := 0, betweennessScore := 0 }]
    ∧ (detectCommunities [soloVerse] (-3) (fun _ => [soloVerse])).labels "S1" =
        some "S1"
    ∧ (detectCommunities [soloVerse] (-3) (fun _ => [soloVerse])).communityCount = 0 := by
  refine ⟨?_, by decide, by decide⟩
  norm_num [calculateBetweennessCentrality, betweennessAccLoop, maxAccOver,
    sortBy, insertSorted, soloVerse]

/-- C7 (amended): zero or negative sample sizes and iteration counts are
accepted silently — the sampling loop of `calculateBetweennessCentrality`
runs zero times, so every score is `0`, and the iteration loop of
`detectCommunities` runs zero times, so the labelling is the initial
self-labelling; the only clamp is capping `sampleSize` at the node count,
so any sample size of at least `verses.length` behaves exactly like
`verses.length`. -/
theorem C7_amended_silent_acceptance :
    (∀ (verses : List Verse) (draws : Nat → Nat × Nat) (s : Int), s ≤ 0 →
      ∀ r ∈ calculateBetweennessCentrality verses s draws,
        r.betweennessCentrality = 0 ∧ r.betweennessScore = 0)
    ∧ (∀ (verses : List Verse) (its : Int) (shuffles : Nat → List Verse),
        its ≤ 0 →
        (detectCommunities verses its shuffles).labels = initialLabels verses)
    ∧ (∀ (verses : List Verse) (draws : Nat → Nat × Nat) (s : Int),
        (verses.length : Int) ≤ s →
        calculateBetweennessCentrality verses s draws =
          calculateBetweennessCentrality verses (verses.length : Int) draws) := by
  refine ⟨?_, ?_, ?_⟩
  · intro verses draws s hs r hr
    have hmin : (min s (verses.length : Int)).toNat = 0 :=
      Int.toNat_of_nonpos (le_trans (min_le_left _ _) hs)
    simp only [calculateBetweennessCentrality, hmin, betweennessAccLoop,
      maxAccOver_const_zero, mem_sortBy, reduceIte] at hr
    rcases List.mem_map.mp hr with ⟨v, _, rfl⟩
    norm_num
  · intro verses its shuffles hits
    simp [detectCommunities, Int.toNat_of_nonpos hits, lpIterate]
  · intro verses draws s hs
    have : min s (verses.length : Int) = (verses.length : Int) :=
      min_eq_right hs
    simp only [calculateBetweennessCentrality, this, min_self]

/-- C7 amended, witnessed at `sampleSize = -5` and `iterations = -3` on the
singleton graph. -/
theorem C7_amended_silent_acceptance_witness :
    (∀ r ∈ calculateBetweennessCentrality [soloVerse] (-5) (fun _ => (0, 0)),
      r.betweennessCentrality = 0 ∧ r.betweennessScore = 0)
    ∧ (detectCommunities [soloVerse] (-3) (fun _ => [soloVerse])).labels =
        initialLabels [soloVerse] :=
  ⟨C7_amended_silent_acceptance.1 [soloVerse] (fun _ => (0, 0)) (-5) (by decide),
   C7_amended_silent_acceptance.2.1 [soloVerse] (-3) (fun _ => [soloVerse]) (by decide)⟩

/-! ## Claim C10: the statistics cache -/

/-- C10: while a result slot of the cache is filled, the corresponding
function returns the cached result unchanged and leaves the cache untouched,
ignoring all of its arguments; each computing call fills its own slot with
the returned result; and `clearCache` resets all five result slots at once. -/
theorem C10_cache_returns_cached_results :
    (∀ verses c r, c.centrality = some r →
      calculateDegreeCentralityCached verses c = (r, c))
    ∧ (∀ verses s draws c r, c.betweenness = some r →
      calculateBetweennessCentralityCached verses s draws c = (r, c))
    ∧ (∀ verses c r, c.clustering = some r →
      calculateClusteringCoefficientCached verses c = (r, c))
    ∧ (∀ verses topN c r, c.hubs = some r →
      identifyHubsCached verses topN c = (r, c))
    ∧ (∀ verses its shuffles c r, c.communities = some r →
      detectCommunitiesCached verses its shuffles c = (r, c))
    ∧ (∀ verses c,
      ((calculateDegreeCentralityCached verses c).2).centrality =
        some (calculateDegreeCentralityCached verses c).1)
    ∧ (∀ verses s draws c,
      ((calculateBetweennessCentralityCached verses s draws c).2).betweenness =
        some (calculateBetweennessCentralityCached verses s draws c).1)
    ∧ (∀ verses c,
      ((calculateClusteringCoefficientCached verses c).2).clustering =
        some (calculateClusteringCoefficientCached verses c).1)
    ∧ (∀ verses topN c,
      ((identifyHubsCached verses topN c).2).hubs =
        some (identifyHubsCached verses topN c).1)
    ∧ (∀ verses its shuffles c,
      ((detectCommunitiesCached verses its shuffles c).2).communities =
        some (detectCommunitiesCached verses its shuffles c).1)
    ∧ clearCache.centrality = none ∧ clearCache.betweenness = none
    ∧ clearCache.clustering = none ∧ clearCache.communities = none
    ∧ clearCache.hubs = none := by
  refine ⟨?_, ?_, ?_, ?_, ?_, ?_, ?_, ?_, ?_, ?_, rfl, rfl, rfl, rfl, rfl⟩
  · intro verses c r h; simp [calculateDegreeCentralityCached, h]
  · intro verses s draws c r h
    simp [calculateBetweennessCentralityCached, h]
  · intro verses c r h; simp [calculateClusteringCoefficientCached, h]
  · intro verses topN c r h; simp [identifyHubsCached, h]
  · intro verses its shuffles c r h; simp [detectCommunitiesCached, h]
  · intro verses c
    cases h : c.centrality with
    | none => simp [calculateDegreeCentralityCached, h]
    | some r => simp [calculateDegreeCentralityCached, h]
  · intro verses s draws c
    cases h : c.betweenness with
    | none => simp [calculateBetweennessCentralityCached, h]
    | some r => simp [calculateBetweennessCentralityCached, h]
  · intro verses c
    cases h : c.clustering with
    | none => simp [calculateClusteringCoefficientCached, h]
    | some r => simp [calculateClusteringCoefficientCached, h]
  · intro verses topN c
    cases h : c.hubs with
    | none => simp [identifyHubsCached, h]
    | some r => simp [identifyHubsCached, h]
  · intro verses its shuffles c
    cases h : c.communities with
    | none => simp [detectCommunitiesCached, h]
    | some r => simp [detectCommunitiesCached, h]

/-- C10, witnessed on the fully populated cache: every call returns the
cached empty results and leaves the cache unchanged, whatever its
arguments. -/
theorem C10_cache_returns_cached_results_witness :
    calculateDegreeCentralityCached chain4 fullCache = ([], fullCache)
    ∧ calculateBetweennessCentralityCached chain4 200 (fun _ => (0, 0)) fullCache =
        ([], fullCache)
    ∧ calculateClusteringCoefficientCached chain4 fullCache = ([], fullCache)
    ∧ identifyHubsCached chain4 50 fullCache = ([], fullCache) :=
  ⟨C10_cache_returns_cached_results.1 chain4 fullCache [] rfl,
   C10_cache_returns_cached_results.2.1 chain4 200 (fun _ => (0, 0)) fullCache [] rfl,
   C10_cache_returns_cached_results.2.2.1 chain4 fullCache [] rfl,
   C10_cache_returns_cached_results.2.2.2.1 chain4 50 fullCache [] rfl⟩

/-! ## Claim C9: determinism under a fixed random stream -/

/-- The sampling loop consults only the first `n` draws. -/
theorem betweennessAccLoop_congr (verses : List Verse)
    (d₁ d₂ : Nat → Nat × Nat) :
    ∀ (n : Nat) (acc : String → Nat), (∀ i < n, d₁ i = d₂ i) →
      betweennessAccLoop verses d₁ n acc = betweennessAccLoop verses d₂ n acc := by
  intro n
  induction n with
  | zero => intro acc _; rfl
  | succ k ih =>
    intro acc h
    simp only [betweennessAccLoop,
      ih acc (fun i hi => h i (Nat.lt_succ_of_lt hi)),
      h k (Nat.lt_succ_self k)]

/-- The iteration loop consults only the shuffles of rounds
`iter, …, iter + rem - 1`. -/
theorem lpIterate_congr (sh₁ sh₂ : Nat → List Verse) :
    ∀ (rem iter : Nat) (labels : String → Option String),
      (∀ j, iter ≤ j → j < iter + rem → sh₁ j = sh₂ j) →
      lpIterate sh₁ iter rem labels = lpIterate sh₂ iter rem labels := by
  intro rem
  induction rem with
  | zero => intro iter labels _; rfl
  | succ k ih =>
    intro iter labels h
    have hsh : sh₁ iter = sh₂ iter :=
      h iter le_rfl (Nat.lt_add_of_pos_right (Nat.succ_pos k))
    simp only [lpIterate, hsh]
    by_cases hz : (runIteration labels (sh₂ iter)).2 = 0
    · simp [hz]
    · simp only [if_neg hz]
      exact ih (iter + 1)
        (runIteration labels (sh₂ iter)).1
        (fun j hj hj' => h j (Nat.le_of_succ_le hj) (by omega))

/-- C9: with the random sources made explicit, each sampled computation is a
pure function of its inputs: two betweenness runs agreeing on the consumed
draws give identical score lists, two community-detection runs agreeing on
the consumed shuffles give identical results, and two `computeAllStats`
runs from the same cache agreeing on both streams give identical composite
reports (hence byte-identical serialisations). -/
theorem C9_determinism_under_fixed_streams :
    (∀ (verses : List Verse) (s : Int) (d₁ d₂ : Nat → Nat × Nat),
      (∀ i < (min s (verses.length : Int)).toNat, d₁ i = d₂ i) →
      calculateBetweennessCentrality verses s d₁ =
        calculateBetweennessCentrality verses s d₂)
    ∧ (∀ (verses : List Verse) (its : Int) (sh₁ sh₂ : Nat → List Verse),
      (∀ i < its.toNat, sh₁ i = sh₂ i) →
      detectCommunities verses its sh₁ = detectCommunities verses its sh₂)
    ∧ (∀ (verses : List Verse) (d₁ d₂ : Nat → Nat × Nat)
        (sh₁ sh₂ : Nat → List Verse) (c : StatsCache),
      (∀ i < (min 200 (verses.length : Int)).toNat, d₁ i = d₂ i) →
      (∀ i < 5, sh₁ i = sh₂ i) →
      computeAllStats verses d₁ sh₁ c = computeAllStats verses d₂ sh₂ c) := by
  have hb : ∀ (verses : List Verse) (s : Int) (d₁ d₂ : Nat → Nat × Nat),
      (∀ i < (min s (verses.length : Int)).toNat, d₁ i = d₂ i) →
      calculateBetweennessCentrality verses s d₁ =
        calculateBetweennessCentrality verses s d₂ := by
    intro verses s d₁ d₂ h
    simp only [calculateBetweennessCentrality,
      betweennessAccLoop_congr verses d₁ d₂ _ _ h]
  have hm : ∀ (verses : List Verse) (its : Int) (sh₁ sh₂ : Nat → List Verse),
      (∀ i < its.toNat, sh₁ i = sh₂ i) →
      detectCommunities verses its sh₁ = detectCommunities verses its sh₂ := by
    intro verses its sh₁ sh₂ h
    simp only [detectCommunities,
      lpIterate_congr sh₁ sh₂ its.toNat 0 (initialLabels verses)
        (fun j _ hj' => h j (by omega))]
  refine ⟨hb, hm, ?_⟩
  intro verses d₁ d₂ sh₁ sh₂ c hd hs
  have hb' := hb verses 200 d₁ d₂ hd
  have hm' := hm verses 5 sh₁ sh₂ (by intro i hi; exact hs i (by omega))
  simp only [computeAllStats, calculateBetweennessCentralityCached,
    detectCommunitiesCached, hb', hm']

/-- C9, witnessed on the chain scenario with literally equal streams. -/
theorem C9_determinism_witness :
    calculateBetweennessCentrality chain4 200 (fun i => (i, i + 3)) =
      calculateBetweennessCentrality chain4 200 (fun i => (i, i + 3))
    ∧ detectCommunities chain4 5 (fun _ => chain4) =
        detectCommunities chain4 5 (fun _ => chain4) :=
  ⟨C9_determinism_under_fixed_streams.1 chain4 200 _ _ (fun _ _ => rfl),
   C9_determinism_under_fixed_streams.2.1 chain4 5 _ _ (fun _ _ => rfl)⟩

/-! ## Claim C4: betweenness centrality normalisation -/

/-- C4: in every run of `calculateBetweennessCentrality` (any sample size
and any draw stream), every score is non-negative and at most `1`; either
all scores are `0` (when no sampled path produced an interior node) or some
node scores exactly `1` (the node with the maximum accumulator); and a
sampling step whose discovered path has at most two nodes — a direct edge,
or the single-node path when source and target coincide — leaves every
accumulator unchanged. -/
theorem C4_betweenness_scores_normalised :
    (∀ (verses : List Verse) (s : Int) (draws : Nat → Nat × Nat),
      (∀ r ∈ calculateBetweennessCentrality verses s draws,
        0 ≤ r.betweennessCentrality ∧ r.betweennessCentrality ≤ 1)
      ∧ ((∀ r ∈ calculateBetweennessCentrality verses s draws,
            r.betweennessCentrality = 0)
        ∨ (∃ r ∈ calculateBetweennessCentrality verses s draws,
            r.betweennessCentrality = 1)))
    ∧ (∀ (verses : List Verse) (acc : String → Nat) (pair : Nat × Nat),
      (∀ p, findShortestPath (verses.getD (pair.1 % verses.length) dummyVerse)
          (verses.getD (pair.2 % verses.length) dummyVerse) verses = some p →
          p.length ≤ 2) →
      betweennessStep verses acc pair = acc) := by
  constructor
  · intro verses s draws
    simp only [calculateBetweennessCentrality, mem_sortBy, List.mem_map]
    set A := betweennessAccLoop verses draws
      (min s (verses.length : Int)).toNat (fun _ => 0) with hA
    set M := maxAccOver ((verses.map (fun v => v.id)).dedup) A with hM
    have hMval : ∀ v ∈ verses, A v.id ≤ M := by
      intro v hv
      refine le_foldr_max (List.mem_map_of_mem A ?_)
      exact List.mem_dedup.mpr (List.mem_map_of_mem _ hv)
    have hMpos : (0 : ℚ) < (if M = 0 then 1 else (M : ℚ)) := by
      by_cases h : M = 0
      · simp [h]
      · simp only [if_neg h]
        exact_mod_cast Nat.pos_of_ne_zero h
    constructor
    · rintro r ⟨v, hv, rfl⟩
      constructor
      · exact div_nonneg (by positivity) hMpos.le
      · by_cases h0 : M = 0
        · have : A v.id = 0 := Nat.le_zero.mp (h0 ▸ hMval v hv)
          simp [this, h0]
        · have : ((A v.id : ℚ)) ≤ (M : ℚ) := by exact_mod_cast hMval v hv
          simp only [if_neg h0]
          rw [div_le_one (by exact_mod_cast Nat.pos_of_ne_zero h0)]
          exact this
    · by_cases h0 : M = 0
      · left
        rintro r ⟨v, hv, rfl⟩
        have : A v.id = 0 := Nat.le_zero.mp (h0 ▸ hMval v hv)
        simp [this, h0]
      · right
        rcases foldr_max_eq_zero_or_mem ((verses.map (fun v => v.id)).dedup.map A)
          with hz | hmem
        · exact absurd hz h0
        · rcases List.mem_map.mp hmem with ⟨i, hi, hacc⟩
          rcases List.mem_map.mp (List.mem_dedup.mp hi) with ⟨v, hv, rfl⟩
          refine ⟨_, ⟨v, hv, rfl⟩, ?_⟩
          simp only [if_neg h0, hacc]
          exact div_self (by exact_mod_cast h0)
  · intro verses acc pair hshort
    rcases hfs : findShortestPath
        (verses.getD (pair.1 % verses.length) dummyVerse)
        (verses.getD (pair.2 % verses.length) dummyVerse) verses with _ | p
    · simp only [betweennessStep, hfs]
      simp
    · have h2 := hshort p hfs
      simp only [betweennessStep, hfs]
      simp [Nat.not_lt.mpr h2]

/-- C4, witnessed on the chain graph, with a degenerate sampling step whose
source and target coincide. -/
theorem C4_betweenness_scores_normalised_witness :
    (∀ r ∈ calculateBetweennessCentrality chain4 200 (fun i => (i, i + 1)),
      0 ≤ r.betweennessCentrality ∧ r.betweennessCentrality ≤ 1)
    ∧ betweennessStep chain4 (fun _ => 0) (0, 0) = (fun _ => 0) := by
  refine ⟨(C4_betweenness_scores_normalised.1 chain4 200 (fun i => (i, i + 1))).1, ?_⟩
  refine C4_betweenness_scores_normalised.2 chain4 (fun _ => 0) (0, 0) ?_
  intro p hp
  have h : findShortestPath (chain4.getD (0 % chain4.length) dummyVerse)
      (chain4.getD (0 % chain4.length) dummyVerse) chain4 = some [chainVA] := by
    decide
  have := Option.some.inj ((h.symm).trans hp)
  rw [← this]
  decide

/-! ## Claim C5: clustering coefficients -/

/-- The pair count of the double loop is at most the number of unordered
index pairs, `C(n, 2)`. -/
theorem countConnections_le (l : List Verse) :
    (countConnections l : ℚ) * 2 ≤ (l.length : ℚ) * ((l.length : ℚ) - 1) := by
  induction l with
  | nil => norm_num [countConnections]
  | cons n rest ih =>
    have hc : ((rest.countP (fun w => decide (w.id ∈ n.refs)) : ℚ)) ≤
        (rest.length : ℚ) := by
      exact_mod_cast List.countP_le_length (fun w : Verse => decide (w.id ∈ n.refs))
    simp only [countConnections, List.length_cons]
    push_cast
    nlinarith [ih]

/-- Every branch of `clusteringScore` keeps the spread verse. -/
theorem clusteringScore_verse (verses : List Verse) (v : Verse) :
    (clusteringScore verses v).verse = v := by
  simp only [clusteringScore]
  by_cases h1 : v.refCount < 2
  · simp [h1]
  · by_cases h2 : (resolvedNeighbors verses v).length < 2
    · simp [h1, h2]
    · simp [h1, h2]

/-- C5: every clustering coefficient lies in `[0, 1]`; a verse of degree
less than 2, or with fewer than 2 resolvable neighbors, scores exactly `0`;
otherwise the coefficient is the one-directional pair count divided by
`C(#resolved neighbors, 2)`; and on the fully connected 4-node graph every
coefficient is exactly `1`. -/
theorem C5_clustering_coefficient_bounds :
    (∀ (verses : List Verse), ∀ r ∈ calculateClusteringCoefficient verses,
      (0 ≤ r.clusteringCoefficient ∧ r.clusteringCoefficient ≤ 1)
      ∧ (r.verse.refCount < 2 → r.clusteringCoefficient = 0)
      ∧ ((resolvedNeighbors verses r.verse).length < 2 →
          r.clusteringCoefficient = 0)
      ∧ (2 ≤ r.verse.refCount →
          2 ≤ (resolvedNeighbors verses r.verse).length →
          r.clusteringCoefficient =
            (countConnections (resolvedNeighbors verses r.verse) : ℚ) /
              (((resolvedNeighbors verses r.verse).length : ℚ) *
                (((resolvedNeighbors verses r.verse).length : ℚ) - 1) / 2)))
    ∧ (∀ r ∈ calculateClusteringCoefficient k4, r.clusteringCoefficient = 1) := by
  constructor
  · intro verses r hr
    simp only [calculateClusteringCoefficient, mem_sortBy, List.mem_map] at hr
    rcases hr with ⟨v, hv, rfl⟩
    rw [clusteringScore_verse]
    by_cases h1 : v.refCount < 2
    · refine ⟨⟨?_, ?_⟩, fun _ => ?_, fun _ => ?_, fun h _ => absurd h1 (by omega)⟩ <;>
        simp [clusteringScore, h1]
    · by_cases h2 : (resolvedNeighbors verses v).length < 2
      · refine ⟨⟨?_, ?_⟩, fun h => absurd h1 (by omega), fun _ => ?_,
          fun _ h => absurd h2 (by omega)⟩ <;>
          simp [clusteringScore, h1, h2]
      · have hn2 : (2 : ℚ) ≤ ((resolvedNeighbors verses v).length : ℚ) := by
          exact_mod_cast Nat.le_of_not_lt h2
        have hpos : (0 : ℚ) <
            ((resolvedNeighbors verses v).length : ℚ) *
              (((resolvedNeighbors verses v).length : ℚ) - 1) / 2 := by
          nlinarith
        have hcoeff : (clusteringScore verses v).clusteringCoefficient =
            (countConnections (resolvedNeighbors verses v) : ℚ) /
              (((resolvedNeighbors verses v).length : ℚ) *
                (((resolvedNeighbors verses v).length : ℚ) - 1) / 2) := by
          simp [clusteringScore, h1, h2]
        refine ⟨⟨?_, ?_⟩, fun h => absurd h1 (by omega),
          fun h => absurd h2 (by omega), fun _ _ => hcoeff⟩
        · rw [hcoeff]
          exact div_nonneg (by positivity) hpos.le
        · rw [hcoeff, div_le_one hpos]
          nlinarith [countConnections_le (resolvedNeighbors verses v)]
  · intro r hr
    simp only [calculateClusteringCoefficient, mem_sortBy, List.mem_map] at hr
    rcases hr with ⟨v, hv, rfl⟩
    have hA : (clusteringScore k4 k4A).clusteringCoefficient = 1 := by
      have hn : resolvedNeighbors k4 k4A = [k4B, k4C, k4D] := by decide
      have hcc : countConnections [k4B, k4C, k4D] = 3 := by decide
      have h2 : ¬ k4A.refCount < 2 := by decide
      simp only [clusteringScore, hn, hcc, if_neg h2]
      norm_num
    have hB : (clusteringScore k4 k4B).clusteringCoefficient = 1 := by
      have hn : resolvedNeighbors k4 k4B = [k4A, k4C, k4D] := by decide
      have hcc : countConnections [k4A, k4C, k4D] = 3 := by decide
      have h2 : ¬ k4B.refCount < 2 := by decide
      simp only [clusteringScore, hn, hcc, if_neg h2]
      norm_num
    have hC : (clusteringScore k4 k4C).clusteringCoefficient = 1 := by
      have hn : resolvedNeighbors k4 k4C = [k4A, k4B, k4D] := by decide
      have hcc : countConnections [k4A, k4B, k4D] = 3 := by decide
      have h2 : ¬ k4C.refCount < 2 := by decide
      simp only [clusteringScore, hn, hcc, if_neg h2]
      norm_num
    have hD : (clusteringScore k4 k4D).clusteringCoefficient = 1 := by
      have hn : resolvedNeighbors k4 k4D = [k4A, k4B, k4C] := by decide
      have hcc : countConnections [k4A, k4B, k4C] = 3 := by decide
      have h2 : ¬ k4D.refCount < 2 := by decide
      simp only [clusteringScore, hn, hcc, if_neg h2]
      norm_num
    have hv' : v = k4A ∨ v = k4B ∨ v = k4C ∨ v = k4D := by
      simpa [k4] using hv
    rcases hv' with rfl | rfl | rfl | rfl
    · exact hA
    · exact hB
    · exact hC
    · exact hD

/-- C5, witnessed at the chain node `A` (degree 1, hence coefficient 0). -/
theorem C5_clustering_coefficient_bounds_witness :
    0 ≤ (clusteringScore chain4 chainVA).clusteringCoefficient
    ∧ (clusteringScore chain4 chainVA).clusteringCoefficient ≤ 1 :=
  (C5_clustering_coefficient_bounds.1 chain4 (clusteringScore chain4 chainVA)
    (by
      simp only [calculateClusteringCoefficient, mem_sortBy]
      exact List.mem_map_of_mem (clusteringScore chain4) (by decide))).1

/-! ## Claim C6: community partition -/

/-- The initial labelling is defined on every verse id. -/
theorem initialLabels_isSome {verses : List Verse} {v : Verse}
    (hv : v ∈ verses) : (initialLabels verses v.id).isSome := by
  have : verses.any (fun w => w.id = v.id) = true :=
    List.any_eq_true.mpr ⟨v, hv, by simp⟩
  simp [initialLabels, this]

/-- The most-frequent-label scan never loses a present initial label. -/
theorem pickMaxLabel_isSome (counts : List (String × Nat))
    (init : Option String) (h : init.isSome) :
    (pickMaxLabel counts init).isSome := by
  suffices H : ∀ (cs : List (String × Nat)) (best : Nat × Option String),
      best.2.isSome →
      ((cs.foldl (fun (best : Nat × Option String) kv =>
        if best.1 < kv.2 then (kv.2, some kv.1) else best) best).2).isSome by
    exact H counts (0, init) h
  intro cs
  induction cs with
  | nil => intro best hb; exact hb
  | cons kv rest ih =>
    intro best hb
    simp only [List.foldl_cons]
    by_cases hlt : best.1 < kv.2
    · exact ih _ (by simp [hlt])
    · exact ih _ (by simp [hlt, hb])

/-- One propagation step keeps every defined label slot defined. -/
theorem propagateStep_isSome (st : (String → Option String) × Nat)
    (v : Verse) (i : String) (h : (st.1 i).isSome) :
    ((propagateStep st v).1 i).isSome := by
  simp only [propagateStep]
  by_cases h0 : v.refCount = 0
  · simpa [h0] using h
  · simp only [if_neg h0]
    by_cases hne : st.1 v.id ≠ pickMaxLabel (tallyLabels st.1 v.refs) (st.1 v.id)
    · simp only [if_pos hne]
      by_cases hi : i = v.id
      · subst hi
        exact if_pos rfl ▸ pickMaxLabel_isSome _ _ h
      · simpa [hi] using h
    · simpa [hne] using h

/-- A whole shuffled pass keeps every defined label slot defined. -/
theorem foldl_propagate_isSome (shuffled : List Verse) :
    ∀ (st : (String → Option String) × Nat) (i : String),
      (st.1 i).isSome → ((shuffled.foldl propagateStep st).1 i).isSome := by
  induction shuffled with
  | nil => intro st i h; exact h
  | cons v rest ih =>
    intro st i h
    exact ih (propagateStep st v) i (propagateStep_isSome st v i h)

/-- The iteration loop keeps every defined label slot defined. -/
theorem lpIterate_isSome (shuffles : Nat → List Verse) :
    ∀ (rem iter : Nat) (labels : String → Option String) (i : String),
      (labels i).isSome → ((lpIterate shuffles iter rem labels) i).isSome := by
  intro rem
  induction rem with
  | zero => intro iter labels i h; exact h
  | succ k ih =>
    intro iter labels i h
    simp only [lpIterate]
    by_cases hz : (runIteration labels (shuffles iter)).2 = 0
    · simp only [if_pos hz]
      exact foldl_propagate_isSome _ _ i h
    · simp only [if_neg hz]
      exact ih (iter + 1) _ i (foldl_propagate_isSome _ _ i h)

/-- Membership after `addToGroup`: an old group, the extended group, or the
freshly created singleton group. -/
theorem mem_addToGroup_cases (l : String) (v : Verse) :
    ∀ (g : List (String × List Verse)) (e : String × List Verse),
      e ∈ addToGroup g l v →
      e ∈ g ∨ (∃ ms, (l, ms) ∈ g ∧ e = (l, ms ++ [v])) ∨ e = (l, [v]) := by
  intro g
  induction g with
  | nil =>
    intro e he
    simp only [addToGroup, List.mem_singleton] at he
    exact Or.inr (Or.inr he)
  | cons kms rest ih =>
    intro e he
    obtain ⟨k, ms⟩ := kms
    by_cases hk : k = l
    · subst hk
      rw [addToGroup, if_pos rfl] at he
      rcases List.mem_cons.mp he with he | he
      · exact Or.inr (Or.inl ⟨ms, List.mem_cons_self _ _, he⟩)
      · exact Or.inl (List.mem_cons_of_mem _ he)
    · rw [addToGroup, if_neg hk] at he
      rcases List.mem_cons.mp he with he | he
      · exact Or.inl (he ▸ List.mem_cons_self _ _)
      · rcases ih e he with h | ⟨ms', hms', hh⟩ | h
        · exact Or.inl (List.mem_cons_of_mem _ h)
        · exact Or.inr (Or.inl ⟨ms', List.mem_cons_of_mem _ hms', hh⟩)
        · exact Or.inr (Or.inr h)

/-- `addToGroup` only adds the given verse under the given label. -/
theorem addToGroup_spec (P : String → Verse → Prop)
    (l : String) (v : Verse) (hv : P l v) :
    ∀ (g : List (String × List Verse)),
      (∀ e ∈ g, ∀ x ∈ e.2, P e.1 x) →
      ∀ e ∈ addToGroup g l v, ∀ x ∈ e.2, P e.1 x := by
  intro g hg e he x hx
  rcases mem_addToGroup_cases l v g e he with h | ⟨ms, hms, rfl⟩ | rfl
  · exact hg e h x hx
  · rcases List.mem_append.mp hx with hx | hx
    · exact hg (l, ms) hms x hx
    · simp only [List.mem_singleton] at hx
      exact hx ▸ hv
  · simp only [List.mem_singleton] at hx
    exact hx ▸ hv

/-- The members of the groups after `addToGroup` are the previous members
plus the added verse. -/
theorem addToGroup_flat_perm (l : String) (v : Verse) :
    ∀ (g : List (String × List Verse)),
      ((addToGroup g l v).flatMap (fun e => e.2)).Perm
        ((g.flatMap (fun e => e.2)) ++ [v]) := by
  intro g
  induction g with
  | nil => simp [addToGroup]
  | cons kms rest ih =>
    obtain ⟨k, ms⟩ := kms
    by_cases hk : k = l
    · subst hk
      rw [addToGroup, if_pos rfl]
      simp only [List.flatMap_cons]
      rw [List.append_assoc, List.append_assoc]
      exact List.Perm.append_left ms List.perm_append_comm
    · rw [addToGroup, if_neg hk]
      simp only [List.flatMap_cons]
      rw [List.append_assoc]
      exact List.Perm.append_left ms ih

/-- Grouping distributes the processed verses among the groups. -/
theorem foldl_addToGroup_perm (labels : String → Option String) :
    ∀ (vs : List Verse) (g0 : List (String × List Verse)),
      ((vs.foldl (fun g v => addToGroup g ((labels v.id).getD v.id) v) g0).flatMap
          (fun e => e.2)).Perm
        ((g0.flatMap (fun e => e.2)) ++ vs) := by
  intro vs
  induction vs with
  | nil => intro g0; simp
  | cons v rest ih =>
    intro g0
    simp only [List.foldl_cons]
    refine (ih _).trans ?_
    have h1 := addToGroup_flat_perm ((labels v.id).getD v.id) v g0
    refine (h1.append_right rest).trans ?_
    rw [List.append_assoc]
    rfl

/-- Every member of every final group carries the group's label. -/
theorem groupByLabel_spec (labels : String → Option String)
    (verses : List Verse) :
    ∀ e ∈ groupByLabel labels verses, ∀ x ∈ e.2,
      (labels x.id).getD x.id = e.1 := by
  suffices H : ∀ (vs : List Verse) (g0 : List (String × List Verse)),
      (∀ e ∈ g0, ∀ x ∈ e.2, (labels x.id).getD x.id = e.1) →
      ∀ e ∈ vs.foldl (fun g v => addToGroup g ((labels v.id).getD v.id) v) g0,
        ∀ x ∈ e.2, (labels x.id).getD x.id = e.1 by
    exact H verses [] (by simp)
  intro vs
  induction vs with
  | nil => intro g0 hg; exact hg
  | cons v rest ih =>
    intro g0 hg
    exact ih _ (addToGroup_spec (fun k x => (labels x.id).getD x.id = k)
      ((labels v.id).getD v.id) v rfl g0 hg)

/-- The grouped members are exactly the verses (as a multiset). -/
theorem groupByLabel_flat_perm (labels : String → Option String)
    (verses : List Verse) :
    ((groupByLabel labels verses).flatMap (fun e => e.2)).Perm verses := by
  simpa using foldl_addToGroup_perm labels verses []

/-- C6: after community detection each verse id carries exactly one final
label (the labelling is a function defined on every verse id); every
reported community has at least 3 members, all drawn from the verse list
and all carrying the community's label; the reported communities are
mutually disjoint (under unique ids) and sorted by member count descending;
every label-group of at least 3 members is reported; and `communityCount`
equals the number of reported communities. -/
theorem C6_community_partition (verses : List Verse) (its : Int)
    (shuffles : Nat → List Verse)
    (hnd : (verses.map (fun v => v.id)).Nodup) :
    (∀ v ∈ verses, ((detectCommunities verses its shuffles).labels v.id).isSome)
    ∧ (∀ g ∈ (detectCommunities verses its shuffles).communities,
        3 ≤ g.2.length
        ∧ (∀ x ∈ g.2, x ∈ verses ∧
            ((detectCommunities verses its shuffles).labels x.id).getD x.id = g.1))
    ∧ ((detectCommunities verses its shuffles).communities).Pairwise
        (fun g1 g2 => (g1.2.map (fun x => x.id)).Disjoint (g2.2.map (fun x => x.id)))
    ∧ ((detectCommunities verses its shuffles).communities).Pairwise
        (fun g1 g2 => g2.2.length ≤ g1.2.length)
    ∧ (∀ g ∈ groupByLabel (detectCommunities verses its shuffles).labels verses,
        3 ≤ g.2.length → g ∈ (detectCommunities verses its shuffles).communities)
    ∧ (detectCommunities verses its shuffles).communityCount =
        ((detectCommunities verses its shuffles).communities).length := by
  have hlab : (detectCommunities verses its shuffles).labels =
      lpIterate shuffles 0 its.toNat (initialLabels verses) := rfl
  set L := lpIterate shuffles 0 its.toNat (initialLabels verses) with hL
  have hcomm : (detectCommunities verses its shuffles).communities =
      sortBy (fun a b => decide (b.2.length ≤ a.2.length))
        ((groupByLabel L verses).filter (fun g => 3 ≤ g.2.length)) := rfl
  refine ⟨?_, ?_, ?_, ?_, ?_, rfl⟩
  · intro v hv
    rw [hlab]
    exact lpIterate_isSome shuffles its.toNat 0 _ _ (initialLabels_isSome hv)
  · intro g hg
    rw [hcomm] at hg
    obtain ⟨hgG, hglen⟩ := List.mem_filter.mp (mem_sortBy.mp hg)
    refine ⟨by simpa using hglen, ?_⟩
    intro x hx
    constructor
    · exact (groupByLabel_flat_perm L verses).mem_iff.mp
        (List.mem_flatMap.mpr ⟨g, hgG, hx⟩)
    · rw [hlab]
      exact groupByLabel_spec L verses g hgG x hx
  · have hids : (((groupByLabel L verses).flatMap (fun e => e.2)).map
        (fun x => x.id)).Nodup :=
      (((groupByLabel_flat_perm L verses).map (fun x => x.id)).nodup_iff).mpr hnd
    have hflat : ((groupByLabel L verses).flatMap
        (fun e => e.2.map (fun x => x.id))).Nodup := by
      rw [← List.map_flatMap]
      exact hids
    rw [List.flatMap_def, List.nodup_flatten] at hflat
    have hpair := List.pairwise_map.mp hflat.2
    have hfiltered : ((groupByLabel L verses).filter
        (fun g => decide (3 ≤ g.2.length))).Pairwise
        (fun a b => (List.map (fun x => x.id) a.2).Disjoint
          (List.map (fun x => x.id) b.2)) :=
      List.Pairwise.sublist (List.filter_sublist _) hpair
    rw [hcomm]
    refine ((sortBy_perm _ _).pairwise_iff ?_).mpr hfiltered
    intro a b h
    intro i hib hia
    exact h hia hib
  · rw [hcomm]
    refine (pairwise_sortBy ?_ ?_ _).imp ?_
    · intro x y
      rcases le_total y.2.length x.2.length with h | h
      · exact Or.inl (by simpa using h)
      · exact Or.inr (by simpa using h)
    · intro x y z hxy hyz
      simp only [decide_eq_true_eq] at hxy hyz ⊢
      omega
    · intro a b h
      simpa using h
  · intro g hgG h3
    rw [hcomm]
    exact mem_sortBy.mpr (List.mem_filter.mpr ⟨hgG, by simpa using h3⟩)

/-- C6, witnessed on the triangle-with-dangling-refs graph. -/
theorem C6_community_partition_witness :
    (∀ v ∈ dangling4,
      ((detectCommunities dangling4 5 (fun _ => dangling4)).labels v.id).isSome)
    ∧ (detectCommunities dangling4 5 (fun _ => dangling4)).communityCount =
        ((detectCommunities dangling4 5 (fun _ => dangling4)).communities).length :=
  ⟨(C6_community_partition dangling4 5 (fun _ => dangling4) (by decide)).1,
   (C6_community_partition dangling4 5 (fun _ => dangling4) (by decide)).2.2.2.2.2⟩

/-! ## Claim C2: BFS shortest-path correctness -/

theorem chainB_iff (m : String → Option Verse) :
    ∀ p, chainB m p = true ↔ List.Chain' (RefStep m) p
  | [] => by simp [chainB]
  | [v] => by simp [chainB]
  | u :: v :: rest => by
    simp [chainB, List.chain'_cons, RefStep, chainB_iff m (v :: rest),
      and_assoc]

theorem isPathB_iff (m : String → Option Verse) (start : Verse)
    (p : List Verse) : isPathB m start p = true ↔ IsPath m start p := by
  simp [isPathB, IsPath, chainB_iff]

theorem IsPath.ne_nil {m : String → Option Verse} {start : Verse}
    {p : List Verse} (h : IsPath m start p) : p ≠ [] := by
  rcases List.head?_eq_some_iff.mp h.1 with ⟨t, rfl⟩
  simp

theorem IsPath.length_pos {m : String → Option Verse} {start : Verse}
    {p : List Verse} (h : IsPath m start p) : 1 ≤ p.length :=
  List.length_pos.mpr h.ne_nil

theorem IsPath.getLast_isSome {m : String → Option Verse} {start : Verse}
    {p : List Verse} (h : IsPath m start p) : p.getLast?.isSome :=
  List.getLast?_isSome.mpr h.ne_nil

theorem lastId_eq_some {p : List Verse} {i : String} :
    lastId p = some i ↔ ∃ u, p.getLast? = some u ∧ u.id = i := by
  simp [lastId, Option.map_eq_some']

theorem IsPath.take {m : String → Option Verse} {start : Verse}
    {P : List Verse} (h : IsPath m start P) {n : Nat} (hn : 0 < n) :
    IsPath m start (P.take n) := by
  constructor
  · rcases List.head?_eq_some_iff.mp h.1 with ⟨t, rfl⟩
    cases n with
    | zero => omega
    | succ k => simp
  · exact List.Chain'.take h.2 n

theorem IsPath.append {m : String → Option Verse} {start : Verse}
    {p : List Verse} (h : IsPath m start p) {u v : Verse}
    (hu : p.getLast? = some u) (hv : RefStep m u v) :
    IsPath m start (p ++ [v]) := by
  constructor
  · rcases List.head?_eq_some_iff.mp h.1 with ⟨t, rfl⟩
    simp
  · refine List.chain'_append.mpr ⟨h.2, List.chain'_singleton v, ?_⟩
    intro x hx y hy
    simp only [List.head?_cons, Option.mem_def, Option.some.injEq] at hy
    rw [Option.mem_def, hu] at hx
    cases hx
    cases hy
    exact hv

theorem getLast?_take_succ {P : List Verse} {k : Nat} (hk : k < P.length) :
    (P.take (k + 1)).getLast? = some (P.get ⟨k, hk⟩) := by
  rw [List.getLast?_eq_getElem?, List.length_take]
  have h1 : min (k + 1) P.length - 1 = k := by omega
  rw [h1, List.getElem?_take, if_pos (Nat.lt_succ_self k)]
  exact List.getElem?_eq_getElem hk

theorem verseFor_unique {m : String → Option Verse} {start : Verse}
    (hs : ∀ v, m start.id = some v → v = start) {i : String} {u u' : Verse}
    (h1 : VerseFor m start i u) (h2 : VerseFor m start i u') : u = u' := by
  rcases h1 with ⟨rfl, rfl⟩ | h1
  · rcases h2 with ⟨_, rfl⟩ | h2
    · rfl
    · exact (hs u' h2).symm
  · rcases h2 with ⟨rfl, rfl⟩ | h2
    · exact hs u h1
    · rw [h1] at h2
      exact Option.some.inj h2

theorem getLast_verseFor {m : String → Option Verse} {start : Verse}
    {P : List Verse} (h : IsPath m start P) {u : Verse}
    (hu : P.getLast? = some u) : VerseFor m start u.id u := by
  rcases List.head?_eq_some_iff.mp h.1 with ⟨t, rfl⟩
  rcases List.eq_nil_or_concat t with rfl | ⟨t', z, rfl⟩
  · simp only [List.getLast?_singleton, Option.some.injEq] at hu
    exact Or.inl ⟨by rw [← hu], hu.symm⟩
  · simp only [List.concat_eq_append] at h hu
    have hz : (start :: (t' ++ [z])).getLast? = some z := by
      rw [show start :: (t' ++ [z]) = (start :: t') ++ [z] by simp,
        List.getLast?_concat]
    have huz : u = z := by
      rw [hu] at hz
      exact Option.some.inj hz
    have hchain := h.2
    rw [show start :: (t' ++ [z]) = (start :: t') ++ [z] by simp,
      List.chain'_append] at hchain
    rcases hchain with ⟨_, _, hstep⟩
    have hlast : ((start :: t').getLast?).isSome :=
      List.getLast?_isSome.mpr (by simp)
    rcases Option.isSome_iff_exists.mp hlast with ⟨w, hw⟩
    have hzstep := hstep w (by rw [Option.mem_def, hw]) z (by simp)
    rw [huz]
    exact Or.inr hzstep.2

/-- Specification of the inner enqueue loop: the new visited set is the old
one plus all the scanned refs; the enqueued paths extend the current path by
fresh resolvable verses with pairwise distinct ids; and every fresh
resolvable ref does get its extension enqueued. -/
theorem enqueueRefs_spec {m : String → Option Verse}
    (hm : ∀ i v, m i = some v → v.id = i) (path : List Verse) :
    ∀ (refs visited : List String),
      (∀ x, x ∈ (enqueueRefs m path visited refs).1 ↔
        (x ∈ visited ∨ x ∈ refs))
      ∧ (∃ ws : List Verse,
          (enqueueRefs m path visited refs).2 = ws.map (fun v => path ++ [v])
          ∧ (ws.map (fun v => v.id)).Nodup
          ∧ (∀ v ∈ ws, m v.id = some v ∧ v.id ∈ refs ∧ v.id ∉ visited))
      ∧ (∀ r ∈ refs, r ∉ visited → ∀ v, m r = some v →
          (path ++ [v]) ∈ (enqueueRefs m path visited refs).2) := by
  intro refs
  induction refs with
  | nil =>
    intro visited
    refine ⟨by simp [enqueueRefs], ⟨[], by simp [enqueueRefs], by simp, by simp⟩,
      by simp⟩
  | cons r rs ih =>
    intro visited
    by_cases hr : r ∈ visited
    · have heq : enqueueRefs m path visited (r :: rs) =
          enqueueRefs m path visited rs := by
        rw [enqueueRefs, if_pos hr]
      rcases ih visited with ⟨h1, ⟨ws, hws, hnd, hcond⟩, h3⟩
      refine ⟨?_, ⟨ws, by rw [heq]; exact hws, hnd, ?_⟩, ?_⟩
      · intro x
        rw [heq, h1 x, List.mem_cons]
        constructor
        · rintro (h | h)
          · exact Or.inl h
          · exact Or.inr (Or.inr h)
        · rintro (h | rfl | h)
          · exact Or.inl h
          · exact Or.inl hr
          · exact Or.inr h
      · intro v hv
        rcases hcond v hv with ⟨ha, hb, hc⟩
        exact ⟨ha, List.mem_cons_of_mem r hb, hc⟩
      · intro r' hr' hnv v hv
        rw [heq]
        rcases List.mem_cons.mp hr' with rfl | hr'
        · exact absurd hr hnv
        · exact h3 r' hr' hnv v hv
    · cases hmr : m r with
      | none =>
        have heq : enqueueRefs m path visited (r :: rs) =
            enqueueRefs m path (r :: visited) rs := by
          rw [enqueueRefs, if_neg hr, hmr]
        rcases ih (r :: visited) with ⟨h1, ⟨ws, hws, hnd, hcond⟩, h3⟩
        refine ⟨?_, ⟨ws, by rw [heq]; exact hws, hnd, ?_⟩, ?_⟩
        · intro x
          rw [heq, h1 x, List.mem_cons, List.mem_cons]
          tauto
        · intro v hv
          rcases hcond v hv with ⟨ha, hb, hc⟩
          refine ⟨ha, List.mem_cons_of_mem r hb, fun hcv => hc (List.mem_cons_of_mem r hcv)⟩
        · intro r' hr' hnv v hv
          rw [heq]
          rcases List.mem_cons.mp hr' with rfl | hr'
          · rw [hmr] at hv
            cases hv
          · by_cases hrr : r' = r
            · subst hrr
              rw [hmr] at hv
              cases hv
            · exact h3 r' hr' (by
                intro hc
                rcases List.mem_cons.mp hc with h | h
                · exact hrr h
                · exact hnv h) v hv
      | some v0 =>
        have hid : v0.id = r := hm r v0 hmr
        rcases hE : enqueueRefs m path (r :: visited) rs with ⟨vis, q⟩
        have heq : enqueueRefs m path visited (r :: rs) =
            (vis, (path ++ [v0]) :: q) := by
          rw [enqueueRefs, if_neg hr, hmr, hE]
        rcases ih (r :: visited) with ⟨h1, ⟨ws, hws, hnd, hcond⟩, h3⟩
        rw [hE] at h1 hws h3
        refine ⟨?_, ⟨v0 :: ws, ?_, ?_, ?_⟩, ?_⟩
        · intro x
          rw [heq]
          simp only at h1
          rw [h1 x, List.mem_cons, List.mem_cons]
          tauto
        · rw [heq]
          exact congrArg (List.cons (path ++ [v0])) hws
        · simp only [List.map_cons, List.nodup_cons]
          constructor
          · intro hcon
            rcases List.mem_map.mp hcon with ⟨w, hw, hwid⟩
            rcases hcond w hw with ⟨_, _, hc⟩
            rw [hwid, hid] at hc
            exact hc (List.mem_cons_self r visited)
          · exact hnd
        · intro w hw
          rcases List.mem_cons.mp hw with rfl | hw
          · rw [hid]
            exact ⟨hmr, List.mem_cons_self r rs, hr⟩
          · rcases hcond w hw with ⟨ha, hb, hc⟩
            exact ⟨ha, List.mem_cons_of_mem r hb,
              fun hcv => hc (List.mem_cons_of_mem r hcv)⟩
        · intro r' hr' hnv v hv
          rw [heq]
          simp only
          by_cases hrr : r' = r
          · subst hrr
            rw [hmr] at hv
            rw [Option.some.inj hv]
            exact List.mem_cons_self _ _
          · rcases List.mem_cons.mp hr' with rfl | hr'
            · exact absurd rfl hrr
            · exact List.mem_cons_of_mem _ (h3 r' hr' (by
                intro hc
                rcases List.mem_cons.mp hc with h | h
                · exact hrr h
                · exact hnv h) v hv)

theorem pairwise_le_of_const {l : List Nat} {c : Nat}
    (h : ∀ x ∈ l, x = c) : List.Pairwise (fun a b => a ≤ b) l := by
  induction l with
  | nil => exact List.Pairwise.nil
  | cons a t ih =>
    refine List.pairwise_cons.mpr ⟨?_, ih (fun x hx => h x (List.mem_cons_of_mem a hx))⟩
    intro b hb
    rw [h a (List.mem_cons_self a t), h b (List.mem_cons_of_mem a hb)]

theorem mem_of_head?_eq_some {l : List α} {a : α} (h : l.head? = some a) :
    a ∈ l := by
  rcases List.head?_eq_some_iff.mp h with ⟨t, rfl⟩
  exact List.mem_cons_self a t

/-- Every later queue entry is at least as long as the front entry. -/
theorem BfsInv.front_le {m : String → Option Verse} {start : Verse}
    {p₀ : List Verse} {rest : List (List Verse)} {vis : List String}
    (inv : BfsInv m start (p₀ :: rest) vis) :
    ∀ p ∈ rest, p₀.length ≤ p.length := by
  intro p hp
  have h := inv.lens_sorted
  rw [List.map_cons, List.pairwise_cons] at h
  exact h.1 p.length (List.mem_map_of_mem _ hp)

/-- Dropping a front entry beyond the depth bound preserves the invariant. -/
theorem bfsInv_skip {m : String → Option Verse} {start : Verse}
    {p₀ : List Verse} {rest : List (List Verse)} {vis : List String}
    (inv : BfsInv m start (p₀ :: rest) vis) (hlen : 6 < p₀.length) :
    BfsInv m start rest vis := by
  have hge := inv.front_le
  refine ⟨?_, ?_, ?_, ?_, ?_, inv.start_vis, ?_, ?_⟩
  · exact fun p hp => inv.valid p (List.mem_cons_of_mem _ hp)
  · have h := inv.lens_sorted
    rw [List.map_cons, List.pairwise_cons] at h
    exact h.2
  · intro f hf p hp
    have h1 := inv.lens_bounded p₀ rfl p (List.mem_cons_of_mem _ hp)
    have h2 := hge f (mem_of_head?_eq_some hf)
    omega
  · exact fun p hp => inv.ends_vis p (List.mem_cons_of_mem _ hp)
  · exact fun p hp => inv.minimalQ p (List.mem_cons_of_mem _ hp)
  · intro f hf P hP hPlen z hz
    refine inv.coverage p₀ rfl P hP ?_ z hz
    omega
  · intro i hi
    rcases inv.expanded i hi with ⟨p, hp, hpi⟩ | h | h
    · rcases List.mem_cons.mp hp with rfl | hp
      · refine Or.inr (Or.inl ?_)
        intro P hP hPi
        have := inv.minimalQ p (List.mem_cons_self p rest) P hP
          (hPi.trans hpi.symm)
        omega
      · exact Or.inl ⟨p, hp, hpi⟩
    · exact Or.inr (Or.inl h)
    · exact Or.inr (Or.inr h)

/-- The initial BFS state satisfies the invariant. -/
theorem bfsInv_init {m : String → Option Verse} {start : Verse} :
    BfsInv m start [[start]] [start.id] := by
  refine ⟨?_, ?_, ?_, ?_, ?_, ?_, ?_, ?_⟩
  · intro p hp
    rw [List.mem_singleton] at hp
    subst hp
    exact ⟨rfl, List.chain'_singleton start⟩
  · simp
  · intro f hf p hp
    rw [List.mem_singleton] at hp
    subst hp
    simp
  · intro p hp u hu
    rw [List.mem_singleton] at hp
    subst hp
    simp only [List.getLast?_singleton, Option.mem_def, Option.some.injEq] at hu
    subst hu
    exact List.mem_singleton.mpr rfl
  · intro p hp P hP _
    rw [List.mem_singleton] at hp
    subst hp
    simpa using hP.length_pos
  · exact List.mem_singleton.mpr rfl
  · intro f hf P hP hPlen z hz
    simp only [List.head?_cons, Option.some.injEq] at hf
    subst hf
    simp only [List.length_singleton] at hPlen
    have h1 := hP.length_pos
    have hlen1 : P.length = 1 := by omega
    rcases List.head?_eq_some_iff.mp hP.1 with ⟨t, rfl⟩
    have ht : t = [] := by
      simp only [List.length_cons] at hlen1
      exact List.length_eq_zero.mp (by omega)
    subst ht
    simp only [List.getLast?_singleton, Option.mem_def, Option.some.injEq] at hz
    subst hz
    exact List.mem_singleton.mpr rfl
  · intro i hi
    rw [List.mem_singleton] at hi
    subst hi
    exact Or.inl ⟨[start], List.mem_singleton.mpr rfl, rfl⟩

/-- Expanding the front entry (within the depth bound) preserves the
invariant. -/
theorem bfsInv_expand {m : String → Option Verse} {start : Verse}
    (hm : ∀ i v, m i = some v → v.id = i)
    (hs : ∀ v, m start.id = some v → v = start)
    {p₀ : List Verse} {rest : List (List Verse)} {vis : List String}
    {cur : Verse}
    (inv : BfsInv m start (p₀ :: rest) vis)
    (hcur : p₀.getLast? = some cur)
    (hlen : p₀.length ≤ 6) :
    BfsInv m start (rest ++ (enqueueRefs m p₀ vis cur.refs).2)
      (enqueueRefs m p₀ vis cur.refs).1 := by
  obtain ⟨hmem, ⟨ws, hws, hndws, hcondws⟩, hpush⟩ :=
    enqueueRefs_spec hm p₀ cur.refs vis
  have hvsub : ∀ x ∈ vis, x ∈ (enqueueRefs m p₀ vis cur.refs).1 :=
    fun x hx => (hmem x).mpr (Or.inl hx)
  have hrsub : ∀ x ∈ cur.refs, x ∈ (enqueueRefs m p₀ vis cur.refs).1 :=
    fun x hx => (hmem x).mpr (Or.inr hx)
  have hp0valid : IsPath m start p₀ := inv.valid p₀ (List.mem_cons_self _ _)
  have hp0len : 1 ≤ p₀.length := hp0valid.length_pos
  have hps_shape : ∀ p ∈ (enqueueRefs m p₀ vis cur.refs).2,
      ∃ v ∈ ws, p = p₀ ++ [v] := by
    intro p hp
    rw [hws] at hp
    rcases List.mem_map.mp hp with ⟨v, hv, rfl⟩
    exact ⟨v, hv, rfl⟩
  have hps_len : ∀ p ∈ (enqueueRefs m p₀ vis cur.refs).2,
      p.length = p₀.length + 1 := by
    intro p hp
    rcases hps_shape p hp with ⟨v, _, rfl⟩
    simp
  have hge := inv.front_le
  have hbound_old : ∀ p ∈ p₀ :: rest, p.length ≤ p₀.length + 1 :=
    inv.lens_bounded p₀ rfl
  have hcurFor : VerseFor m start cur.id cur := getLast_verseFor hp0valid hcur
  have hcoverold : ∀ P, IsPath m start P → P.length ≤ p₀.length →
      ∀ z, P.getLast? = some z → z.id ∈ vis := by
    intro P hP hle z hz
    exact inv.coverage p₀ rfl P hP (le_min hle (by omega)) z
      (by rw [Option.mem_def]; exact hz)
  refine ⟨?_, ?_, ?_, ?_, ?_, hvsub start.id inv.start_vis, ?_, ?_⟩
  · intro p hp
    rcases List.mem_append.mp hp with hp | hp
    · exact inv.valid p (List.mem_cons_of_mem _ hp)
    · rcases hps_shape p hp with ⟨v, hv, rfl⟩
      rcases hcondws v hv with ⟨hmv, hvr, _⟩
      exact hp0valid.append hcur ⟨hvr, hmv⟩
  · rw [List.map_append]
    refine List.pairwise_append.mpr ⟨?_, ?_, ?_⟩
    · have h := inv.lens_sorted
      rw [List.map_cons, List.pairwise_cons] at h
      exact h.2
    · have hconst : ∀ x ∈ ((enqueueRefs m p₀ vis cur.refs).2).map
          (fun p => p.length), x = p₀.length + 1 := by
        intro x hx
        rcases List.mem_map.mp hx with ⟨p, hp, rfl⟩
        exact hps_len p hp
      exact pairwise_le_of_const hconst
    · intro a ha b hb
      rcases List.mem_map.mp ha with ⟨p, hp, rfl⟩
      rcases List.mem_map.mp hb with ⟨p', hp', rfl⟩
      have h1 := hbound_old p (List.mem_cons_of_mem _ hp)
      have h2 := hps_len p' hp'
      omega
  · intro f hf p hp
    have hfmem := mem_of_head?_eq_some hf
    have hflen : p₀.length ≤ f.length := by
      rcases List.mem_append.mp hfmem with h | h
      · exact hge f h
      · rw [hps_len f h]
        omega
    rcases List.mem_append.mp hp with h | h
    · have := hbound_old p (List.mem_cons_of_mem _ h)
      omega
    · rw [hps_len p h]
      omega
  · intro p hp u hu
    rcases List.mem_append.mp hp with h | h
    · exact hvsub u.id (inv.ends_vis p (List.mem_cons_of_mem _ h) u hu)
    · rcases hps_shape p h with ⟨v, hv, rfl⟩
      rw [Option.mem_def, List.getLast?_concat] at hu
      rw [← Option.some.inj hu]
      exact hrsub v.id (hcondws v hv).2.1
  · intro p hp P hP hlast
    rcases List.mem_append.mp hp with h | h
    · exact inv.minimalQ p (List.mem_cons_of_mem _ h) P hP hlast
    · rcases hps_shape p h with ⟨v, hv, rfl⟩
      rw [List.length_append, List.length_singleton]
      by_contra hcon
      push_neg at hcon
      have hlastv : lastId (p₀ ++ [v]) = some v.id := by
        simp [lastId, List.getLast?_concat]
      rw [hlastv] at hlast
      rcases lastId_eq_some.mp hlast with ⟨z, hz, hzid⟩
      have hzvis := hcoverold P hP (by omega) z hz
      rw [hzid] at hzvis
      exact (hcondws v hv).2.2 hzvis
  · intro f hf P hP hPlen z hz
    have hfmem := mem_of_head?_eq_some hf
    by_cases hsmall : P.length ≤ p₀.length
    · exact hvsub z.id (hcoverold P hP hsmall z (by rw [← Option.mem_def]; exact hz))
    · have hfle : f.length ≤ p₀.length + 1 := by
        rcases List.mem_append.mp hfmem with h | h
        · exact hbound_old f (List.mem_cons_of_mem _ h)
        · rw [hps_len f h]
      have hPlen' : P.length = p₀.length + 1 := by
        have h7 : min f.length 7 ≤ f.length := min_le_left _ _
        omega
      have hP' : IsPath m start (P.take p₀.length) := hP.take hp0len
      have htklen : (P.take p₀.length).length = p₀.length := by
        rw [List.length_take]
        omega
      have hk : p₀.length - 1 < P.length := by omega
      have hlastP' : (P.take p₀.length).getLast? =
          some (P.get ⟨p₀.length - 1, hk⟩) := by
        have h := getLast?_take_succ hk
        rwa [Nat.sub_add_cancel hp0len] at h
      set y := P.get ⟨p₀.length - 1, hk⟩ with hy
      have hyvis : y.id ∈ vis :=
        hcoverold (P.take p₀.length) hP' (le_of_eq htklen) y hlastP'
    -- identify z as the next element of P and extract the edge y → z
      have hkz : p₀.length < P.length := by omega
      have hzget : P.getLast? = some (P.get ⟨p₀.length, hkz⟩) := by
        rw [List.getLast?_eq_getElem?]
        have he : P.length - 1 = p₀.length := by omega
        rw [he]
        exact List.getElem?_eq_getElem hkz
      have hzz : z = P.get ⟨p₀.length, hkz⟩ := by
        rw [Option.mem_def] at hz
        rw [hz] at hzget
        exact Option.some.inj hzget
      have hidx : p₀.length - 1 + 1 = p₀.length := Nat.sub_add_cancel hp0len
      have hk1 : p₀.length - 1 < P.length - 1 := by omega
      have hchain := (List.chain'_iff_get.mp hP.2) (p₀.length - 1) hk1
      have hgety : P.get ⟨p₀.length - 1 + 1, by omega⟩ =
          P.get ⟨p₀.length, hkz⟩ := by
        congr 1
        exact Fin.ext (by simpa using hidx)
      have hedge : RefStep m y z := by
        rw [hzz, ← hgety]
        exact hchain
      have hlastP'id : lastId (P.take p₀.length) = some y.id := by
        simp [lastId, hlastP']
      rcases inv.expanded y.id hyvis with ⟨p, hp, hpi⟩ | hdis2 | hdis3
      · rcases List.mem_cons.mp hp with rfl | hp
        · have hcid : cur.id = y.id := by
            rcases lastId_eq_some.mp hpi with ⟨u', hu', hu'id⟩
            rw [hcur] at hu'
            cases Option.some.inj hu'
            exact hu'id
          have hyFor : VerseFor m start y.id y := getLast_verseFor hP' hlastP'
          have hcFor : VerseFor m start y.id cur := by
            rw [← hcid]
            exact hcurFor
          have hyc : y = cur := verseFor_unique hs hyFor hcFor
          refine hrsub z.id ?_
          rw [← hyc]
          exact hedge.1
        · exfalso
          have hle1 : p.length ≤ p₀.length := by
            have h := inv.minimalQ p (List.mem_cons_of_mem _ hp)
              (P.take p₀.length) hP' (hlastP'id.trans hpi.symm)
            omega
          cases rest with
          | nil => exact absurd hp (List.not_mem_nil p)
          | cons r₀ rest' =>
            have hf0 : some r₀ = some f := hf
            have hf1 : r₀ = f := Option.some.inj hf0
            have hsort := inv.lens_sorted
            rw [List.map_cons, List.pairwise_cons] at hsort
            have hsort2 := hsort.2
            rw [List.map_cons, List.pairwise_cons] at hsort2
            have hfp : f.length ≤ p.length := by
              rcases List.mem_cons.mp hp with rfl | hp'
              · rw [← hf1]
              · rw [← hf1]
                exact hsort2.1 p.length (List.mem_map_of_mem _ hp')
            have hPf : P.length ≤ f.length :=
              le_trans hPlen (min_le_left _ _)
            omega
      · exfalso
        have := hdis2 (P.take p₀.length) hP' hlastP'id
        omega
      · have hyFor : VerseFor m start y.id y := getLast_verseFor hP' hlastP'
        exact hvsub z.id (hdis3 y hyFor z.id hedge.1)
  · intro i hi
    by_cases hiv : i ∈ vis
    · rcases inv.expanded i hiv with ⟨p, hp, hpi⟩ | h | h
      · rcases List.mem_cons.mp hp with rfl | hp
        · refine Or.inr (Or.inr ?_)
          intro u hu r hr
          have hcid : cur.id = i := by
            rcases lastId_eq_some.mp hpi with ⟨u', hu', hu'id⟩
            rw [hcur] at hu'
            cases Option.some.inj hu'
            exact hu'id
          have hcfor : VerseFor m start i cur := by
            rw [← hcid]
            exact hcurFor
          have huc : u = cur := verseFor_unique hs hu hcfor
          exact hrsub r (huc ▸ hr)
        · exact Or.inl ⟨p, List.mem_append_left _ hp, hpi⟩
      · exact Or.inr (Or.inl h)
      · exact Or.inr (Or.inr (fun u hu r hr => hvsub r (h u hu r hr)))
    · have hir : i ∈ cur.refs := by
        rcases (hmem i).mp hi with h | h
        · exact absurd h hiv
        · exact h
      cases hmi : m i with
      | some v =>
        have hpv : (p₀ ++ [v]) ∈ (enqueueRefs m p₀ vis cur.refs).2 :=
          hpush i hir hiv v hmi
        refine Or.inl ⟨p₀ ++ [v], List.mem_append_right _ hpv, ?_⟩
        simp [lastId, List.getLast?_concat, hm i v hmi]
      | none =>
        refine Or.inr (Or.inr ?_)
        intro u hu r hr
        rcases hu with ⟨his, rfl⟩ | hmu
        · exact absurd (his ▸ inv.start_vis) hiv
        · rw [hmi] at hmu
          cases hmu

/-- Expanding strictly decreases the BFS potential: every enqueued path
consumes one fresh resolvable id from the finite id universe. -/
theorem enqueue_potential {m : String → Option Verse}
    (hm : ∀ i v, m i = some v → v.id = i)
    {idsF : Finset String} (hmIds : ∀ r v, m r = some v → r ∈ idsF)
    (p₀ : List Verse) (vis : List String) (refs : List String) :
    (idsF \ (enqueueRefs m p₀ vis refs).1.toFinset).card +
      (enqueueRefs m p₀ vis refs).2.length ≤ (idsF \ vis.toFinset).card := by
  obtain ⟨hmem, ⟨ws, hws, hndws, hcondws⟩, _⟩ := enqueueRefs_spec hm p₀ refs vis
  have hlen : (enqueueRefs m p₀ vis refs).2.length = ws.length := by
    rw [hws, List.length_map]
  have hcardW : ((ws.map (fun v => v.id)).toFinset).card = ws.length := by
    rw [List.toFinset_card_of_nodup hndws, List.length_map]
  have hWsub : (ws.map (fun v => v.id)).toFinset ⊆ idsF \ vis.toFinset := by
    intro x hx
    rw [List.mem_toFinset] at hx
    rcases List.mem_map.mp hx with ⟨v, hv, rfl⟩
    rcases hcondws v hv with ⟨hmv, _, hnv⟩
    rw [Finset.mem_sdiff]
    refine ⟨hmIds v.id v hmv, ?_⟩
    rw [List.mem_toFinset]
    exact hnv
  have hsub2 : idsF \ (enqueueRefs m p₀ vis refs).1.toFinset ⊆
      (idsF \ vis.toFinset) \ (ws.map (fun v => v.id)).toFinset := by
    intro x hx
    rw [Finset.mem_sdiff] at hx
    rcases hx with ⟨hxids, hxnv2⟩
    rw [Finset.mem_sdiff, Finset.mem_sdiff]
    refine ⟨⟨hxids, ?_⟩, ?_⟩
    · intro hxv
      rw [List.mem_toFinset] at hxv
      refine hxnv2 ?_
      rw [List.mem_toFinset]
      exact (hmem x).mpr (Or.inl hxv)
    · intro hxW
      rw [List.mem_toFinset] at hxW
      rcases List.mem_map.mp hxW with ⟨v, hv, rfl⟩
      rcases hcondws v hv with ⟨_, hvr, _⟩
      refine hxnv2 ?_
      rw [List.mem_toFinset]
      exact (hmem v.id).mpr (Or.inr hvr)
  have h1 := Finset.card_le_card hsub2
  rw [Finset.card_sdiff hWsub] at h1
  have h2 := Finset.card_le_card hWsub
  omega

/-- Soundness of the BFS loop: a returned path is a valid path from the
start to the target, has at most 6 nodes, and is at least as short as every
valid path to the target. -/
theorem bfs_sound {m : String → Option Verse} {start : Verse} {endId : String}
    (hm : ∀ i v, m i = some v → v.id = i)
    (hs : ∀ v, m start.id = some v → v = start) :
    ∀ (fuel : Nat) (q : List (List Verse)) (vis : List String) (p : List Verse),
      BfsInv m start q vis →
      bfsAux m endId fuel q vis = some p →
      IsPath m start p ∧ lastId p = some endId ∧ p.length ≤ 6 ∧
        ∀ P, IsPath m start P → lastId P = some endId → p.length ≤ P.length := by
  intro fuel
  induction fuel with
  | zero =>
    intro q vis p _ h
    simp [bfsAux] at h
  | succ k ih =>
    intro q vis p inv h
    cases q with
    | nil => simp [bfsAux] at h
    | cons path rest =>
      simp only [bfsAux] at h
      cases hg : path.getLast? with
      | none =>
        exfalso
        have hns := (inv.valid path (List.mem_cons_self _ _)).getLast_isSome
        rw [hg] at hns
        simp at hns
      | some current =>
        rw [hg] at h
        simp only at h
        by_cases hd : 6 < path.length
        · rw [if_pos hd] at h
          exact ih rest vis p (bfsInv_skip inv hd) h
        · rw [if_neg hd] at h
          by_cases hfound : current.id = endId
          · rw [if_pos hfound] at h
            have hp : path = p := Option.some.inj h
            subst hp
            refine ⟨inv.valid path (List.mem_cons_self _ _), ?_, by omega, ?_⟩
            · simp [lastId, hg, hfound]
            · intro P hP hPid
              refine inv.minimalQ path (List.mem_cons_self _ _) P hP ?_
              rw [hPid]
              simp [lastId, hg, hfound]
          · rw [if_neg hfound] at h
            rcases hE : enqueueRefs m path vis current.refs with ⟨vis2, ps⟩
            rw [hE] at h
            have hinv := bfsInv_expand hm hs inv hg (by omega)
            rw [hE] at hinv
            exact ih _ _ p hinv h

/-- When the queue has drained without finding the target, every valid path
to the target needs at least 7 nodes. -/
theorem bfs_drained {m : String → Option Verse} {start : Verse}
    {endId : String} {vis : List String}
    (inv : BfsInv m start [] vis)
    (hnr : endId ∈ vis → (∃ p ∈ ([] : List (List Verse)), lastId p = some endId) ∨
      (∀ P, IsPath m start P → lastId P = some endId → 7 ≤ P.length)) :
    ∀ P, IsPath m start P → lastId P = some endId → 7 ≤ P.length := by
  intro P hP hPid
  by_contra hcon
  push_neg at hcon
  have hvis_all : ∀ k (hk : k < P.length), (P.get ⟨k, hk⟩).id ∈ vis := by
    intro k
    induction k with
    | zero =>
      intro hk
      have h0 : P.get ⟨0, hk⟩ = start := by
        rcases List.head?_eq_some_iff.mp hP.1 with ⟨t, rfl⟩
        rfl
      rw [h0]
      exact inv.start_vis
    | succ k ihk =>
      intro hk
      have hkk : k < P.length := by omega
      have hyv := ihk hkk
      have hP' : IsPath m start (P.take (k + 1)) := hP.take (by omega)
      have hlastP' : (P.take (k + 1)).getLast? = some (P.get ⟨k, hkk⟩) :=
        getLast?_take_succ hkk
      have hlastP'id : lastId (P.take (k + 1)) = some (P.get ⟨k, hkk⟩).id := by
        simp [lastId, hlastP']
      have hlenP' : (P.take (k + 1)).length = k + 1 := by
        rw [List.length_take]
        omega
      have hk1 : k < P.length - 1 := by omega
      have hedge := (List.chain'_iff_get.mp hP.2) k hk1
      rcases inv.expanded (P.get ⟨k, hkk⟩).id hyv with ⟨p, hp, _⟩ | hdis2 | hdis3
      · exact absurd hp (List.not_mem_nil p)
      · exfalso
        have h7 := hdis2 (P.take (k + 1)) hP' hlastP'id
        rw [hlenP'] at h7
        omega
      · have hyFor : VerseFor m start (P.get ⟨k, hkk⟩).id (P.get ⟨k, hkk⟩) :=
          getLast_verseFor hP' hlastP'
        exact hdis3 (P.get ⟨k, hkk⟩) hyFor (P.get ⟨k + 1, hk⟩).id hedge.1
  have hplen := hP.length_pos
  have hklast : P.length - 1 < P.length := by omega
  have hlast : P.getLast? = some (P.get ⟨P.length - 1, hklast⟩) := by
    rw [List.getLast?_eq_getElem?]
    exact List.getElem?_eq_getElem hklast
  have hendvis : endId ∈ vis := by
    rcases lastId_eq_some.mp hPid with ⟨u, hu, huid⟩
    have h2 : some (P.get ⟨P.length - 1, hklast⟩) = some u :=
      hlast.symm.trans hu
    rw [← huid, ← Option.some.inj h2]
    exact hvis_all (P.length - 1) hklast
  rcases hnr hendvis with ⟨p, hp, _⟩ | hdis
  · exact absurd hp (List.not_mem_nil p)
  · have := hdis P hP hPid
    omega

/-- Completeness of the BFS loop: a `none` result means every valid path to
the target needs at least 7 nodes. -/
theorem bfs_complete {m : String → Option Verse} {start : Verse}
    {endId : String}
    (hm : ∀ i v, m i = some v → v.id = i)
    (hs : ∀ v, m start.id = some v → v = start)
    {idsF : Finset String} (hmIds : ∀ r v, m r = some v → r ∈ idsF) :
    ∀ (fuel : Nat) (q : List (List Verse)) (vis : List String),
      BfsInv m start q vis →
      (endId ∈ vis → (∃ p ∈ q, lastId p = some endId) ∨
        (∀ P, IsPath m start P → lastId P = some endId → 7 ≤ P.length)) →
      q.length + (idsF \ vis.toFinset).card ≤ fuel →
      bfsAux m endId fuel q vis = none →
      ∀ P, IsPath m start P → lastId P = some endId → 7 ≤ P.length := by
  intro fuel
  induction fuel with
  | zero =>
    intro q vis inv hnr hpot _
    cases q with
    | nil => exact bfs_drained inv hnr
    | cons a t =>
      exfalso
      rw [List.length_cons] at hpot
      omega
  | succ k ih =>
    intro q vis inv hnr hpot h
    cases q with
    | nil => exact bfs_drained inv hnr
    | cons path rest =>
      simp only [bfsAux] at h
      cases hg : path.getLast? with
      | none =>
        exfalso
        have hns := (inv.valid path (List.mem_cons_self _ _)).getLast_isSome
        rw [hg] at hns
        simp at hns
      | some current =>
        rw [hg] at h
        simp only at h
        by_cases hd : 6 < path.length
        · rw [if_pos hd] at h
          refine ih rest vis (bfsInv_skip inv hd) ?_ ?_ h
          · intro hev
            rcases hnr hev with ⟨p, hp, hpid⟩ | hdis
            · rcases List.mem_cons.mp hp with rfl | hp
              · refine Or.inr ?_
                intro P hP hPid
                have := inv.minimalQ p (List.mem_cons_self _ _) P hP
                  (hPid.trans hpid.symm)
                omega
              · exact Or.inl ⟨p, hp, hpid⟩
            · exact Or.inr hdis
          · rw [List.length_cons] at hpot
            omega
        · rw [if_neg hd] at h
          by_cases hfound : current.id = endId
          · rw [if_pos hfound] at h
            cases h
          · rw [if_neg hfound] at h
            rcases hE : enqueueRefs m path vis current.refs with ⟨vis2, ps⟩
            rw [hE] at h
            have hinv := bfsInv_expand hm hs inv hg (by omega)
            rw [hE] at hinv
            have hpot2 : (idsF \ vis2.toFinset).card + ps.length ≤
                (idsF \ vis.toFinset).card := by
              have hq := enqueue_potential hm hmIds path vis current.refs
              rw [hE] at hq
              exact hq
            obtain ⟨hmem, _, hpush⟩ := enqueueRefs_spec hm path current.refs vis
            rw [hE] at hmem hpush
            refine ih (rest ++ ps) vis2 hinv ?_ ?_ h
            · intro hev2
              by_cases hev : endId ∈ vis
              · rcases hnr hev with ⟨p, hp, hpid⟩ | hdis
                · rcases List.mem_cons.mp hp with rfl | hp
                  · exfalso
                    apply hfound
                    rcases lastId_eq_some.mp hpid with ⟨u, hu, huid⟩
                    have h2 : some current = some u := hg.symm.trans hu
                    rw [← huid, ← Option.some.inj h2]
                  · exact Or.inl ⟨p, List.mem_append_left _ hp, hpid⟩
                · exact Or.inr hdis
              · have her : endId ∈ current.refs := by
                  rcases (hmem endId).mp hev2 with h' | h'
                  · exact absurd h' hev
                  · exact h'
                cases hmi : m endId with
                | some v =>
                  refine Or.inl ⟨path ++ [v],
                    List.mem_append_right _ (hpush endId her hev v hmi), ?_⟩
                  simp [lastId, List.getLast?_concat, hm endId v hmi]
                | none =>
                  refine Or.inr ?_
                  intro P hP hPid
                  exfalso
                  rcases lastId_eq_some.mp hPid with ⟨u, hu, huid⟩
                  rcases getLast_verseFor hP hu with ⟨his, rfl⟩ | hmu
                  · exact hev (huid ▸ inv.start_vis)
                  · rw [huid, hmi] at hmu
                    cases hmu
            · rw [List.length_cons] at hpot
              rw [List.length_append]
              omega

/-- The id-indexed map resolves an id only to a listed verse with that id. -/
theorem mapGet_id {verses : List Verse} {i : String} {v : Verse}
    (h : mapGet verses i = some v) : v.id = i ∧ v ∈ verses := by
  constructor
  · have hfind := List.find?_some h
    simpa using hfind
  · have hmem := List.mem_of_find?_eq_some h
    rwa [List.mem_reverse] at hmem

/-- C2 counterexample: the claim states that `findShortestPath` returns a
path whenever one of at most 6 hops exists.  On the 7-node chain
`0 ↔ 1 ↔ … ↔ 6` a valid 6-hop (7-node) path from end to end exists, yet the
search returns `null`: the depth check `path.length > 6` counts nodes, so
the effective cap is 5 hops. -/
theorem C2_six_hop_path_not_found :
    IsPath (mapGet chain7) (c7 0) ((List.range 7).map c7)
    ∧ ((List.range 7).map c7).length = 7
    ∧ lastId ((List.range 7).map c7) = some (c7 6).id
    ∧ findShortestPath (c7 0) (c7 6) chain7 = none := by
  refine ⟨(isPathB_iff _ _ _).mp (by decide), by decide, by decide, by decide⟩

/-- C2 (amended): `findShortestPath` returns the node sequence of a
shortest path from source to target whenever a path of at most 5 hops
(6 nodes) exists, and returns `null` whenever no such path exists — the
depth cap is a hard cutoff, so paths needing 6 or more hops yield "no
path"; on the 4-node chain it returns `[A, B, C, D]` for the query A→D. -/
theorem C2_amended_bfs_returns_shortest_within_cap (verses : List Verse)
    (start e : Verse)
    (hst : mapGet verses start.id = none ∨
      mapGet verses start.id = some start) :
    (∀ p, findShortestPath start e verses = some p →
      IsPath (mapGet verses) start p ∧ lastId p = some e.id ∧ p.length ≤ 6 ∧
        ∀ P, IsPath (mapGet verses) start P → lastId P = some e.id →
          p.length ≤ P.length)
    ∧ ((∃ P, IsPath (mapGet verses) start P ∧ lastId P = some e.id ∧
          P.length ≤ 6) →
        ∃ p, findShortestPath start e verses = some p)
    ∧ (findShortestPath start e verses = none →
        ∀ P, IsPath (mapGet verses) start P → lastId P = some e.id →
          7 ≤ P.length)
    ∧ findShortestPath chainVA chainVD chain4 =
        some [chainVA, chainVB, chainVC, chainVD] := by
  have hm : ∀ i v, mapGet verses i = some v → v.id = i :=
    fun i v h => (mapGet_id h).1
  have hs : ∀ v, mapGet verses start.id = some v → v = start := by
    intro v hv
    rcases hst with h | h
    · rw [h] at hv
      cases hv
    · rw [h] at hv
      exact (Option.some.inj hv).symm
  have hmIds : ∀ r v, mapGet verses r = some v →
      r ∈ (verses.map (fun v => v.id)).toFinset := by
    intro r v h
    rcases mapGet_id h with ⟨hid, hmem⟩
    rw [List.mem_toFinset, ← hid]
    exact List.mem_map_of_mem _ hmem
  have hcomplete : findShortestPath start e verses = none →
      ∀ P, IsPath (mapGet verses) start P → lastId P = some e.id →
        7 ≤ P.length := by
    intro hres
    have hpot : ([[start]] : List (List Verse)).length +
        ((verses.map (fun v => v.id)).toFinset \
          ([start.id] : List String).toFinset).card ≤ verses.length + 1 := by
      have h1 : ((verses.map (fun v => v.id)).toFinset \
          ([start.id] : List String).toFinset).card ≤
          ((verses.map (fun v => v.id)).toFinset).card :=
        Finset.card_le_card Finset.sdiff_subset
      have h2 := List.toFinset_card_le (verses.map (fun v => v.id))
      rw [List.length_map] at h2
      simp only [List.length_singleton]
      omega
    have hnr : e.id ∈ ([start.id] : List String) →
        (∃ p ∈ ([[start]] : List (List Verse)), lastId p = some e.id) ∨
          (∀ P, IsPath (mapGet verses) start P → lastId P = some e.id →
            7 ≤ P.length) := by
      intro hev
      rw [List.mem_singleton] at hev
      exact Or.inl ⟨[start], List.mem_singleton.mpr rfl,
        by simp [lastId, hev]⟩
    rw [findShortestPath] at hres
    exact bfs_complete hm hs hmIds (verses.length + 1) [[start]] [start.id]
      bfsInv_init hnr hpot hres
  refine ⟨?_, ?_, hcomplete, by decide⟩
  · intro p hp
    rw [findShortestPath] at hp
    exact bfs_sound hm hs (verses.length + 1) [[start]] [start.id] p
      bfsInv_init hp
  · rintro ⟨P, hP, hPid, hPlen⟩
    cases hres : findShortestPath start e verses with
    | some p => exact ⟨p, rfl⟩
    | none =>
      exfalso
      have := hcomplete hres P hP hPid
      omega

/-- C2 (amended), witnessed on the 4-node chain scenario. -/
theorem C2_amended_bfs_returns_shortest_within_cap_witness :
    findShortestPath chainVA chainVD chain4 =
      some [chainVA, chainVB, chainVC, chainVD] :=
  (C2_amended_bfs_returns_shortest_within_cap chain4 chainVA chainVD
    (by decide)).2.2.2

/-! ## Claim C8: dangling references are silently skipped -/

theorem pruneVerse_id (verses : List Verse) (v : Verse) :
    (pruneVerse verses v).id = v.id := rfl

theorem pruneVerse_refCount (verses : List Verse) (v : Verse) :
    (pruneVerse verses v).refCount = v.refCount := rfl

/-- Resolving in the pruned node set resolves in the original one, with the
result pruned. -/
theorem mapGet_pruneAll (verses : List Verse) (i : String) :
    mapGet (pruneAll verses) i =
      (mapGet verses i).map (pruneVerse verses) := by
  unfold mapGet pruneAll
  rw [← List.map_reverse, List.find?_map]
  rfl

/-- A missing id means no listed verse carries it. -/
theorem mapGet_eq_none_iff (verses : List Verse) (i : String) :
    mapGet verses i = none ↔ ∀ v ∈ verses, v.id ≠ i := by
  unfold mapGet
  rw [List.find?_eq_none]
  constructor
  · intro h v hv
    have := h v (List.mem_reverse.mpr hv)
    simpa using this
  · intro h v hv
    have := h v (List.mem_reverse.mp hv)
    simpa using this

/-- Simulation of the enqueue loop on the pruned graph: the pruned run sees
the filtered refs, keeps a visited set that differs from the original's only
by dangling ids, and enqueues exactly the pruned images of the original's
new paths. -/
theorem enqueueRefs_prune (verses : List Verse) (path : List Verse) :
    ∀ (refs vis vis' : List String),
      (∀ x ∈ vis', x ∈ vis) →
      (∀ x ∈ vis, (mapGet verses x).isSome → x ∈ vis') →
      (∀ x ∈ (enqueueRefs (mapGet (pruneAll verses))
          (path.map (pruneVerse verses)) vis'
          (refs.filter (fun r => (mapGet verses r).isSome))).1,
        x ∈ (enqueueRefs (mapGet verses) path vis refs).1)
      ∧ (∀ x ∈ (enqueueRefs (mapGet verses) path vis refs).1,
          (mapGet verses x).isSome →
          x ∈ (enqueueRefs (mapGet (pruneAll verses))
            (path.map (pruneVerse verses)) vis'
            (refs.filter (fun r => (mapGet verses r).isSome))).1)
      ∧ (enqueueRefs (mapGet (pruneAll verses))
          (path.map (pruneVerse verses)) vis'
          (refs.filter (fun r => (mapGet verses r).isSome))).2 =
        ((enqueueRefs (mapGet verses) path vis refs).2).map
          (List.map (pruneVerse verses)) := by
  intro refs
  induction refs with
  | nil =>
    intro vis vis' hsub hres
    simp only [List.filter_nil, enqueueRefs]
    exact ⟨hsub, hres, rfl⟩
  | cons r rs ih =>
    intro vis vis' hsub hres
    by_cases hrres : (mapGet verses r).isSome
    · rw [List.filter_cons, if_pos (by simpa using hrres)]
      by_cases hrv : r ∈ vis
      · have hrv' : r ∈ vis' := hres r hrv hrres
        rw [show enqueueRefs (mapGet verses) path vis (r :: rs) =
            enqueueRefs (mapGet verses) path vis rs from by
          rw [enqueueRefs, if_pos hrv]]
        rw [show enqueueRefs (mapGet (pruneAll verses))
            (path.map (pruneVerse verses)) vis'
            (r :: rs.filter (fun r => (mapGet verses r).isSome)) =
            enqueueRefs (mapGet (pruneAll verses))
              (path.map (pruneVerse verses)) vis'
              (rs.filter (fun r => (mapGet verses r).isSome)) from by
          rw [enqueueRefs, if_pos hrv']]
        exact ih vis vis' hsub hres
      · have hrv' : r ∉ vis' := fun hc => hrv (hsub r hc)
        rcases Option.isSome_iff_exists.mp hrres with ⟨w, hw⟩
        have hw' : mapGet (pruneAll verses) r =
            some (pruneVerse verses w) := by
          rw [mapGet_pruneAll, hw]
          rfl
        rcases hE : enqueueRefs (mapGet verses) path (r :: vis) rs
          with ⟨vis2, ps⟩
        rcases hE' : enqueueRefs (mapGet (pruneAll verses))
            (path.map (pruneVerse verses)) (r :: vis')
            (rs.filter (fun r => (mapGet verses r).isSome))
          with ⟨vis2', ps'⟩
        have heq : enqueueRefs (mapGet verses) path vis (r :: rs) =
            (vis2, (path ++ [w]) :: ps) := by
          rw [enqueueRefs, if_neg hrv, hw, hE]
        have heq' : enqueueRefs (mapGet (pruneAll verses))
            (path.map (pruneVerse verses)) vis'
            (r :: rs.filter (fun r => (mapGet verses r).isSome)) =
            (vis2', ((path.map (pruneVerse verses)) ++
              [pruneVerse verses w]) :: ps') := by
          rw [enqueueRefs, if_neg hrv', hw', hE']
        have hsub2 : ∀ x ∈ (r :: vis' : List String),
            x ∈ (r :: vis : List String) := by
          intro x hx
          rcases List.mem_cons.mp hx with rfl | hx
          · exact List.mem_cons_self _ _
          · exact List.mem_cons_of_mem _ (hsub x hx)
        have hres2 : ∀ x ∈ (r :: vis : List String),
            (mapGet verses x).isSome → x ∈ (r :: vis' : List String) := by
          intro x hx hxs
          rcases List.mem_cons.mp hx with rfl | hx
          · exact List.mem_cons_self _ _
          · exact List.mem_cons_of_mem _ (hres x hx hxs)
        have hih := ih (r :: vis) (r :: vis') hsub2 hres2
        rw [hE, hE'] at hih
        rw [heq, heq']
        refine ⟨hih.1, hih.2.1, ?_⟩
        have h1 : ps' = List.map (List.map (pruneVerse verses)) ps := hih.2.2
        simp [h1]
    · rw [List.filter_cons, if_neg (by simpa using hrres)]
      have hmr : mapGet verses r = none := by
        cases hmm : mapGet verses r with
        | none => rfl
        | some w =>
          rw [hmm] at hrres
          simp at hrres
      by_cases hrv : r ∈ vis
      · rw [show enqueueRefs (mapGet verses) path vis (r :: rs) =
            enqueueRefs (mapGet verses) path vis rs from by
          rw [enqueueRefs, if_pos hrv]]
        exact ih vis vis' hsub hres
      · rw [show enqueueRefs (mapGet verses) path vis (r :: rs) =
            enqueueRefs (mapGet verses) path (r :: vis) rs from by
          rw [enqueueRefs, if_neg hrv, hmr]]
        refine ih (r :: vis) vis' ?_ ?_
        · intro x hx
          exact List.mem_cons_of_mem _ (hsub x hx)
        · intro x hx hxs
          rcases List.mem_cons.mp hx with rfl | hx
          · rw [hmr] at hxs
            simp at hxs
          · exact hres x hx hxs

/-- Lockstep simulation of the BFS loop on the pruned graph. -/
theorem bfsAux_prune (verses : List Verse) (endId : String) :
    ∀ (fuel : Nat) (q : List (List Verse)) (vis vis' : List String),
      (∀ x ∈ vis', x ∈ vis) →
      (∀ x ∈ vis, (mapGet verses x).isSome → x ∈ vis') →
      bfsAux (mapGet (pruneAll verses)) endId fuel
        (q.map (List.map (pruneVerse verses))) vis' =
      (bfsAux (mapGet verses) endId fuel q vis).map
        (List.map (pruneVerse verses)) := by
  intro fuel
  induction fuel with
  | zero =>
    intro q vis vis' _ _
    simp [bfsAux]
  | succ k ih =>
    intro q vis vis' hsub hres
    cases q with
    | nil => simp [bfsAux]
    | cons path rest =>
      simp only [List.map_cons, bfsAux]
      cases hg : path.getLast? with
      | none =>
        simp only [List.getLast?_map, hg, Option.map_none']
        exact ih rest vis vis' hsub hres
      | some current =>
        simp only [List.getLast?_map, hg, Option.map_some', List.length_map]
        by_cases hd : 6 < path.length
        · rw [if_pos hd, if_pos hd]
          exact ih rest vis vis' hsub hres
        · rw [if_neg hd, if_neg hd]
          by_cases hfound : current.id = endId
          · rw [if_pos hfound,
              if_pos (show (pruneVerse verses current).id = endId from hfound)]
            simp
          · rw [if_neg hfound,
              if_neg (show ¬(pruneVerse verses current).id = endId from hfound)]
            rcases hE : enqueueRefs (mapGet verses) path vis current.refs
              with ⟨vis2, ps⟩
            rcases hE' : enqueueRefs (mapGet (pruneAll verses))
                (path.map (pruneVerse verses)) vis'
                ((pruneVerse verses current).refs) with ⟨vis2', ps'⟩
            have hE'' : enqueueRefs (mapGet (pruneAll verses))
                (path.map (pruneVerse verses)) vis'
                (current.refs.filter (fun r => (mapGet verses r).isSome)) =
                (vis2', ps') := hE'
            have hprune :=
              enqueueRefs_prune verses path current.refs vis vis' hsub hres
            rw [hE, hE''] at hprune
            rcases hprune with ⟨ha, hb, hc⟩
            have hgoal := ih (rest ++ ps) vis2 vis2' ha hb
            rw [List.map_append] at hgoal
            show bfsAux (mapGet (pruneAll verses)) endId k
                (List.map (List.map (pruneVerse verses)) rest ++ ps') vis2' =
              Option.map (List.map (pruneVerse verses))
                (bfsAux (mapGet verses) endId k (rest ++ ps) vis2)
            rw [show ps' = List.map (List.map (pruneVerse verses)) ps from hc]
            exact hgoal

/-- Pruning the dangling refs leaves the BFS result unchanged up to the
pruning of the returned verses themselves. -/
theorem findShortestPath_prune (verses : List Verse) (start e : Verse) :
    findShortestPath (pruneVerse verses start) (pruneVerse verses e)
      (pruneAll verses) =
    (findShortestPath start e verses).map (List.map (pruneVerse verses)) := by
  unfold findShortestPath
  have hlen : (pruneAll verses).length = verses.length := by
    unfold pruneAll
    rw [List.length_map]
  rw [hlen]
  have h := bfsAux_prune verses e.id (verses.length + 1) [[start]]
    [start.id] [start.id] (fun x hx => hx) (fun x hx _ => hx)
  simpa using h

/-- A listed verse resolves in the map. -/
theorem mapGet_isSome_of_mem {verses : List Verse} {v : Verse}
    (hv : v ∈ verses) : (mapGet verses v.id).isSome := by
  unfold mapGet
  rw [List.find?_isSome]
  exact ⟨v, List.mem_reverse.mpr hv, by simp⟩

/-- Resolution over a pruned ref list yields the pruned resolved verses. -/
theorem filterMap_prune (verses : List Verse) :
    ∀ (rs : List String),
      (rs.filter (fun r => (mapGet verses r).isSome)).filterMap
        (mapGet (pruneAll verses)) =
      (rs.filterMap (mapGet verses)).map (pruneVerse verses) := by
  intro rs
  induction rs with
  | nil => rfl
  | cons r rs ih =>
    rw [List.filter_cons]
    cases hmr : mapGet verses r with
    | none =>
      rw [if_neg (by simp [hmr])]
      rw [List.filterMap_cons, hmr]
      exact ih
    | some w =>
      rw [if_pos (by simp [hmr])]
      rw [List.filterMap_cons, List.filterMap_cons, hmr,
        mapGet_pruneAll, hmr]
      simp only [Option.map_some', List.map_cons]
      rw [ih]

theorem resolvedNeighbors_prune (verses : List Verse) (v : Verse) :
    resolvedNeighbors (pruneAll verses) (pruneVerse verses v) =
      (resolvedNeighbors verses v).map (pruneVerse verses) :=
  filterMap_prune verses v.refs

/-- Every resolved neighbor is itself resolvable. -/
theorem resolvedNeighbors_resolvable (verses : List Verse) (v : Verse) :
    ∀ w ∈ resolvedNeighbors verses v, (mapGet verses w.id).isSome := by
  intro w hw
  rcases List.mem_filterMap.mp hw with ⟨r, _, hr⟩
  rw [(mapGet_id hr).1, hr]
  rfl

/-- The one-directional pair count ignores dangling refs. -/
theorem countConnections_prune (verses : List Verse) :
    ∀ (l : List Verse), (∀ w ∈ l, (mapGet verses w.id).isSome) →
      countConnections (l.map (pruneVerse verses)) = countConnections l := by
  intro l
  induction l with
  | nil => intro _; rfl
  | cons n rest ih =>
    intro hall
    simp only [List.map_cons, countConnections]
    rw [List.countP_map]
    have hcount : rest.countP
        ((fun w => decide (w.id ∈ (pruneVerse verses n).refs)) ∘
          (pruneVerse verses)) =
        rest.countP (fun w => decide (w.id ∈ n.refs)) := by
      refine List.countP_congr ?_
      intro w hw
      simp only [Function.comp_apply, decide_eq_true_eq]
      have hres := hall w (List.mem_cons_of_mem _ hw)
      constructor
      · intro hmem
        exact (List.mem_filter.mp hmem).1
      · intro hmem
        exact List.mem_filter.mpr ⟨hmem, by simpa using hres⟩
    rw [hcount, ih (fun w hw => hall w (List.mem_cons_of_mem _ hw))]

/-- Pruning changes a clustering score record only by pruning its verse. -/
theorem clusteringScore_prune (verses : List Verse) (v : Verse) :
    clusteringScore (pruneAll verses) (pruneVerse verses v) =
      { verse := pruneVerse verses v
        clusteringCoefficient := (clusteringScore verses v).clusteringCoefficient
        neighborConnections := (clusteringScore verses v).neighborConnections
        possibleConnections := (clusteringScore verses v).possibleConnections } := by
  by_cases h1 : v.refCount < 2
  · simp [clusteringScore, pruneVerse_refCount, h1]
  · by_cases h2 : (resolvedNeighbors verses v).length < 2
    · simp [clusteringScore, pruneVerse_refCount, h1,
        resolvedNeighbors_prune, List.length_map, h2]
    · simp [clusteringScore, pruneVerse_refCount, h1, h2,
        resolvedNeighbors_prune, List.length_map,
        countConnections_prune verses (resolvedNeighbors verses v)
          (resolvedNeighbors_resolvable verses v)]

/-- Pruning commutes with the whole clustering computation. -/
theorem calculateClusteringCoefficient_prune (verses : List Verse) :
    calculateClusteringCoefficient (pruneAll verses) =
      (calculateClusteringCoefficient verses).map (fun r =>
        { verse := pruneVerse verses r.verse
          clusteringCoefficient := r.clusteringCoefficient
          neighborConnections := r.neighborConnections
          possibleConnections := r.possibleConnections }) := by
  unfold calculateClusteringCoefficient
  have h0 : (pruneAll verses).map (clusteringScore (pruneAll verses)) =
      verses.map ((clusteringScore (pruneAll verses)) ∘ (pruneVerse verses)) := by
    show (verses.map (pruneVerse verses)).map (clusteringScore (pruneAll verses)) = _
    rw [List.map_map]
  have h1 : (pruneAll verses).map (clusteringScore (pruneAll verses)) =
      (verses.map (clusteringScore verses)).map (fun r =>
        { verse := pruneVerse verses r.verse
          clusteringCoefficient := r.clusteringCoefficient
          neighborConnections := r.neighborConnections
          possibleConnections := r.possibleConnections : CCScored }) := by
    rw [h0, List.map_map]
    refine List.map_congr_left ?_
    intro v hv
    simp only [Function.comp_apply, clusteringScore_verse]
    exact clusteringScore_prune verses v
  rw [h1]
  exact sortBy_map _ _ _ (fun x y => rfl) _

/-- The initial labelling of the pruned graph is the original one. -/
theorem initialLabels_prune (verses : List Verse) :
    initialLabels (pruneAll verses) = initialLabels verses := by
  funext i
  unfold initialLabels pruneAll
  rw [List.any_map]
  rfl

/-- The initial labelling is undefined exactly on unresolvable ids. -/
theorem initialLabels_inv (verses : List Verse) :
    ∀ r, mapGet verses r = none → initialLabels verses r = none := by
  intro r hr
  have hno : ¬ verses.any (fun v => v.id = r) = true := by
    intro hc
    rcases List.any_eq_true.mp hc with ⟨v, hv, hvid⟩
    exact (mapGet_eq_none_iff verses r).mp hr v hv (by simpa using hvid)
  simp [initialLabels, hno]

/-- The label tally skips refs whose label is undefined, so dangling refs
(with no label) contribute nothing. -/
theorem tallyFold_prune (verses : List Verse)
    (labels : String → Option String)
    (hinv : ∀ r, mapGet verses r = none → labels r = none) :
    ∀ (rs : List String) (acc : List (String × Nat)),
      (rs.filter (fun r => (mapGet verses r).isSome)).foldl
        (fun counts r =>
          match labels r with
          | some l => if l = "" then counts else bumpCount counts l
          | none => counts) acc =
      rs.foldl (fun counts r =>
        match labels r with
        | some l => if l = "" then counts else bumpCount counts l
        | none => counts) acc := by
  intro rs
  induction rs with
  | nil => intro acc; rfl
  | cons r rs ih =>
    intro acc
    rw [List.filter_cons]
    by_cases hr : (mapGet verses r).isSome
    · rw [if_pos (by simpa using hr)]
      simp only [List.foldl_cons]
      exact ih _
    · rw [if_neg (by simpa using hr)]
      have hmr : mapGet verses r = none := by
        cases hmm : mapGet verses r with
        | none => rfl
        | some w =>
          rw [hmm] at hr
          simp at hr
      simp only [List.foldl_cons, hinv r hmr]
      exact ih acc

theorem tallyLabels_prune (verses : List Verse)
    (labels : String → Option String)
    (hinv : ∀ r, mapGet verses r = none → labels r = none) (rs : List String) :
    tallyLabels labels (rs.filter (fun r => (mapGet verses r).isSome)) =
      tallyLabels labels rs :=
  tallyFold_prune verses labels hinv rs []

/-- Propagation treats a pruned verse exactly like the original one. -/
theorem propagateStep_prune (verses : List Verse)
    (st : (String → Option String) × Nat) (v : Verse)
    (hinv : ∀ r, mapGet verses r = none → st.1 r = none) :
    propagateStep st (pruneVerse verses v) = propagateStep st v := by
  have ht : tallyLabels st.1 (pruneVerse verses v).refs =
      tallyLabels st.1 v.refs := tallyLabels_prune verses st.1 hinv v.refs
  simp only [propagateStep, pruneVerse_refCount, pruneVerse_id, ht]

/-- Propagation at a resolvable verse keeps dangling ids unlabelled. -/
theorem propagateStep_inv (verses : List Verse)
    (st : (String → Option String) × Nat) (v : Verse)
    (hinv : ∀ r, mapGet verses r = none → st.1 r = none)
    (hv : (mapGet verses v.id).isSome) :
    ∀ r, mapGet verses r = none → (propagateStep st v).1 r = none := by
  intro r hr
  simp only [propagateStep]
  by_cases h0 : v.refCount = 0
  · simp [h0, hinv r hr]
  · simp only [if_neg h0]
    by_cases hne : st.1 v.id ≠
        pickMaxLabel (tallyLabels st.1 v.refs) (st.1 v.id)
    · simp only [if_pos hne]
      have hrv : ¬ r = v.id := by
        intro hc
        rw [hc] at hr
        rw [hr] at hv
        simp at hv
      simp [hrv, hinv r hr]
    · simp [hne, hinv r hr]

/-- One whole pass over a pruned shuffled order equals the original pass and
keeps dangling ids unlabelled. -/
theorem runFold_prune (verses : List Verse) :
    ∀ (shuffled : List Verse) (st : (String → Option String) × Nat),
      (∀ r, mapGet verses r = none → st.1 r = none) →
      (∀ v ∈ shuffled, v ∈ verses) →
      (shuffled.map (pruneVerse verses)).foldl propagateStep st =
        shuffled.foldl propagateStep st
      ∧ (∀ r, mapGet verses r = none →
          (shuffled.foldl propagateStep st).1 r = none) := by
  intro shuffled
  induction shuffled with
  | nil => intro st hinv _; exact ⟨rfl, hinv⟩
  | cons v rest ih =>
    intro st hinv hmem
    simp only [List.map_cons, List.foldl_cons]
    rw [propagateStep_prune verses st v hinv]
    have hv : (mapGet verses v.id).isSome :=
      mapGet_isSome_of_mem (hmem v (List.mem_cons_self _ _))
    exact ih (propagateStep st v) (propagateStep_inv verses st v hinv hv)
      (fun w hw => hmem w (List.mem_cons_of_mem _ hw))

/-- The whole iteration loop on the pruned graph equals the original loop
and keeps dangling ids unlabelled. -/
theorem lpIterate_prune (verses : List Verse) (shuffles : Nat → List Verse)
    (hperm : ∀ i, (shuffles i).Perm verses) :
    ∀ (rem iter : Nat) (labels : String → Option String),
      (∀ r, mapGet verses r = none → labels r = none) →
      lpIterate (fun i => (shuffles i).map (pruneVerse verses)) iter rem labels =
        lpIterate shuffles iter rem labels
      ∧ (∀ r, mapGet verses r = none →
          lpIterate shuffles iter rem labels r = none) := by
  intro rem
  induction rem with
  | zero => intro iter labels hinv; exact ⟨rfl, hinv⟩
  | succ k ih =>
    intro iter labels hinv
    have hmem : ∀ v ∈ shuffles iter, v ∈ verses :=
      fun v hv => (hperm iter).mem_iff.mp hv
    have hrun := runFold_prune verses (shuffles iter) (labels, 0) hinv hmem
    simp only [lpIterate, runIteration]
    rw [hrun.1]
    by_cases hz : ((shuffles iter).foldl propagateStep (labels, 0)).2 = 0
    · simp only [if_pos hz]
      exact ⟨trivial, hrun.2⟩
    · simp only [if_neg hz]
      exact ih (iter + 1) _ hrun.2

/-- `addToGroup` commutes with mapping a function over the members. -/
theorem addToGroup_map (f : Verse → Verse) :
    ∀ (G : List (String × List Verse)) (l : String) (v : Verse),
      addToGroup (G.map (fun g => (g.1, g.2.map f))) l (f v) =
        (addToGroup G l v).map (fun g => (g.1, g.2.map f)) := by
  intro G
  induction G with
  | nil => intro l v; rfl
  | cons e rest ih =>
    intro l v
    obtain ⟨k, ms⟩ := e
    by_cases hk : k = l
    · subst hk
      simp [addToGroup]
    · simp [addToGroup, hk, ih]

/-- Grouping the pruned verses gives the original groups with pruned
members. -/
theorem groupByLabel_prune (verses : List Verse)
    (labels : String → Option String) :
    groupByLabel labels (pruneAll verses) =
      (groupByLabel labels verses).map
        (fun g => (g.1, g.2.map (pruneVerse verses))) := by
  unfold groupByLabel pruneAll
  suffices H : ∀ (vs : List Verse) (G : List (String × List Verse)),
      (vs.map (pruneVerse verses)).foldl
        (fun g v => addToGroup g ((labels v.id).getD v.id) v)
        (G.map (fun g => (g.1, g.2.map (pruneVerse verses)))) =
      (vs.foldl (fun g v => addToGroup g ((labels v.id).getD v.id) v) G).map
        (fun g => (g.1, g.2.map (pruneVerse verses))) by
    simpa using H verses []
  intro vs
  induction vs with
  | nil => intro G; rfl
  | cons v rest ih =>
    intro G
    simp only [List.map_cons, List.foldl_cons, pruneVerse_id]
    rw [addToGroup_map]
    exact ih _

/-- Community detection on the pruned graph (same shuffle orders, pruned
member-wise) yields the same labels and the same communities with pruned
members: dangling refs never influence the result. -/
theorem detectCommunities_prune (verses : List Verse) (its : Int)
    (shuffles : Nat → List Verse) (hperm : ∀ i, (shuffles i).Perm verses) :
    (detectCommunities (pruneAll verses) its
        (fun i => (shuffles i).map (pruneVerse verses))).labels =
      (detectCommunities verses its shuffles).labels
    ∧ (detectCommunities (pruneAll verses) its
        (fun i => (shuffles i).map (pruneVerse verses))).communities =
      ((detectCommunities verses its shuffles).communities).map
        (fun g => (g.1, g.2.map (pruneVerse verses))) := by
  have hlp := lpIterate_prune verses shuffles hperm its.toNat 0
      (initialLabels verses) (initialLabels_inv verses)
  have hlabels :
      lpIterate (fun i => (shuffles i).map (pruneVerse verses)) 0 its.toNat
        (initialLabels (pruneAll verses)) =
      lpIterate shuffles 0 its.toNat (initialLabels verses) := by
    rw [initialLabels_prune]
    exact hlp.1
  constructor
  · show lpIterate (fun i => (shuffles i).map (pruneVerse verses)) 0 its.toNat
        (initialLabels (pruneAll verses)) = _
    exact hlabels
  · show sortBy (fun a b => decide (b.2.length ≤ a.2.length))
        ((groupByLabel
            (lpIterate (fun i => (shuffles i).map (pruneVerse verses)) 0
              its.toNat (initialLabels (pruneAll verses)))
            (pruneAll verses)).filter (fun g => decide (3 ≤ g.2.length))) = _
    rw [hlabels, groupByLabel_prune]
    rw [List.filter_map]
    have hpred : ∀ g ∈ groupByLabel
        (lpIterate shuffles 0 its.toNat (initialLabels verses)) verses,
        ((fun g => decide (3 ≤ g.2.length)) ∘
          (fun g : String × List Verse =>
            (g.1, g.2.map (pruneVerse verses)))) g =
          (fun g : String × List Verse => decide (3 ≤ g.2.length)) g := by
      intro g _
      simp [Function.comp, List.length_map]
    rw [List.filter_congr hpred]
    exact sortBy_map (fun g : String × List Verse =>
        (g.1, g.2.map (pruneVerse verses)))
      (fun a b => decide (b.2.length ≤ a.2.length))
      (fun a b => decide (b.2.length ≤ a.2.length))
      (fun x y => by simp [List.length_map]) _

/-- C8: dangling references (neighbor ids not present in the node set) are
silently skipped wherever neighbor resolution occurs, and the computation
completes normally.  Formally: deleting every unresolvable id from every
reference list (`pruneAll`) leaves each algorithm's result unchanged up to
the same pruning of the verse copies it returns — BFS path search returns
the same paths (pruned member-wise), clustering returns the same numeric
coefficients on the same verses, and community detection returns the same
labels and the same communities (pruned member-wise).  In particular no
algorithm fails on a dangling reference: all results are total by
construction. -/
theorem C8_dangling_refs_skipped (verses : List Verse) :
    (∀ start e : Verse,
      findShortestPath (pruneVerse verses start) (pruneVerse verses e)
        (pruneAll verses) =
      (findShortestPath start e verses).map (List.map (pruneVerse verses)))
    ∧ calculateClusteringCoefficient (pruneAll verses) =
        (calculateClusteringCoefficient verses).map (fun r =>
          { verse := pruneVerse verses r.verse
            clusteringCoefficient := r.clusteringCoefficient
            neighborConnections := r.neighborConnections
            possibleConnections := r.possibleConnections })
    ∧ ∀ (its : Int) (shuffles : Nat → List Verse),
        (∀ i, (shuffles i).Perm verses) →
        (detectCommunities (pruneAll verses) its
            (fun i => (shuffles i).map (pruneVerse verses))).labels =
          (detectCommunities verses its shuffles).labels
        ∧ (detectCommunities (pruneAll verses) its
            (fun i => (shuffles i).map (pruneVerse verses))).communities =
          ((detectCommunities verses its shuffles).communities).map
            (fun g => (g.1, g.2.map (pruneVerse verses))) :=
  ⟨findShortestPath_prune verses,
   calculateClusteringCoefficient_prune verses,
   fun its shuffles hperm => detectCommunities_prune verses its shuffles hperm⟩

/-- Witness for C8 on the concrete graph `dangling4` (a triangle whose
verses carry dangling refs "X" and "Y", plus an isolated verse): pruning
the dangling refs changes neither the BFS answer nor the community
labels. -/
theorem C8_dangling_refs_skipped_witness :
    (findShortestPath (pruneVerse dangling4 dgA) (pruneVerse dangling4 dgB)
        (pruneAll dangling4) =
      (findShortestPath dgA dgB dangling4).map
        (List.map (pruneVerse dangling4)))
    ∧ (detectCommunities (pruneAll dangling4) 5
          (fun _ => dangling4.map (pruneVerse dangling4))).labels =
        (detectCommunities dangling4 5 (fun _ => dangling4)).labels :=
  ⟨(C8_dangling_refs_skipped dangling4).1 dgA dgB,
   ((C8_dangling_refs_skipped dangling4).2.2 5 (fun _ => dangling4)
      (fun _ => List.Perm.refl _)).1⟩
